import Mathlib

/-!
# SimpleVector

A shallow embedding of `simple-vector/simple_vector.h` (the class template
`SimpleVector<Type>` and its free comparison operators) together with
theorems about its operations.

Conventions of the embedding

* A position (`Iterator`, `ConstIterator`) is the index `pos - begin()`.
* `size_t` is a natural number below `SIZE_MOD = 2 ^ 64`; every arithmetic
  operation on `size_t` of the source is reduced modulo `SIZE_MOD`.
* The buffer behind `items_` is the list of its slots, the unused ones
  (`[size_, capacity_)`) included.
* An `assert` of the source is a named precondition (`Insert.pre`,
  `Erase.pre`, `Fill.pre`, `index.pre`); reads and writes outside the
  allocation, which are undefined behaviour in C++, leave the buffer as it is.
* An operation that changes two objects (`swap`, the move constructor, the
  move assignment) returns both.
* An argument of type `const Type&` that the member reads after it has written
  to the buffer (`Insert`) is a reference (`Ref`), which may name a slot of
  the vector itself.
* Where it matters which buffer an object points to (independence of a copy),
  the vector is an `Object` holding the address of its buffer in a `Memory`.
-/

namespace SimpleVector

/-! ## Element type -/

/-- The operations on the element type `Type` that the container uses. -/
class Elem (α : Type) where
  /-- The value of `Type{}` and of `Type()`. -/
  dflt : α
  /-- The value an element has after the assignment `element = 0`
  (`std::fill(begin(), end(), 0)`). -/
  zero : α
  /-- The value left in an element after `std::move` took its value `x`
  (the identity for scalar types, the empty string for `std::string`). -/
  moved : α → α

/-- Scalar element type `int`: `int{}` is `0`, and moving from an `int`
leaves it as it was. -/
instance : Elem Int where
  dflt := 0
  zero := 0
  moved := id

/-! ## Machine integers -/

/-- Number of values of `size_t` (64 bit). -/
def SIZE_MOD : Nat := 18446744073709551616

/-- Value of `PTRDIFF_MAX`, the largest number of bytes, hence of slots, one
allocation can have. -/
def PTRDIFF_MAX : Nat := 9223372036854775807

/-! ## Standard algorithms on buffers -/

/-- Loop `for (; first != last; ++first) *first = value;` with
`count = last - first` (`std::fill`, the loop of `Fill`, the loop of the
second branch of `Resize`). -/
def fillLoop {α : Type} (value : α) : Nat → Nat → List α → List α
  | 0, _, buf => buf
  | count + 1, first, buf => fillLoop value count (first + 1) (buf.set first value)

/-- Loop `for (; first != last; ++first, ++d_first) *d_first = *first;`
between two different buffers, with `count = last - first`; `residue` is what
the assignment leaves in the source slot (`id` for `std::copy`,
`Elem.moved` for `std::move`). Returns the source and the destination. -/
def transferLoop {α : Type} (residue : α → α) :
    Nat → Nat → Nat → List α → List α → List α × List α
  | 0, _, _, src, dst => (src, dst)
  | count + 1, first, d_first, src, dst =>
    match src[first]? with
    | some x =>
      transferLoop residue count (first + 1) (d_first + 1)
        (src.set first (residue x)) (dst.set d_first x)
    | none => (src, dst)

/-- Algorithm `std::copy(first, last, d_first)` into another buffer. -/
def stdCopy {α : Type} (count first d_first : Nat) (src dst : List α) : List α × List α :=
  transferLoop id count first d_first src dst

/-- Algorithm `std::move(first, last, d_first)` into another buffer. -/
def stdMove {α : Type} [Elem α] (count first d_first : Nat) (src dst : List α) :
    List α × List α :=
  transferLoop Elem.moved count first d_first src dst

/-- Algorithm `std::move(first, last, d_first)` inside one buffer:
`for (; first != last; ++first, ++d_first) *d_first = std::move(*first);`. -/
def forwardLoop {α : Type} (residue : α → α) : Nat → Nat → Nat → List α → List α
  | 0, _, _, buf => buf
  | count + 1, first, d_first, buf =>
    match buf[first]? with
    | some x =>
      forwardLoop residue count (first + 1) (d_first + 1)
        ((buf.set first (residue x)).set d_first x)
    | none => buf

/-- Algorithms `std::copy_backward` and `std::move_backward` inside one buffer:
`while (first != last) *(--d_last) = *(--last);` with `count = last - first`. -/
def backwardLoop {α : Type} (residue : α → α) : Nat → Nat → Nat → List α → List α
  | 0, _, _, buf => buf
  | count + 1, last, d_last, buf =>
    match buf[last - 1]? with
    | some x =>
      backwardLoop residue count (last - 1) (d_last - 1)
        ((buf.set (last - 1) (residue x)).set (d_last - 1) x)
    | none => buf

/-! ## ArrayPtr -/

/-- Modelled from the spec: `ArrayPtr<Type>` of `array_ptr.h`, which is not
among the sources. The Owned Buffer of the spec: a handle that exclusively
owns one contiguous allocation of element slots; the handle of zero slots owns
the null allocation. -/
structure ArrayPtr (α : Type) where
  /-- The slots of the allocation, in address order. -/
  slots : List α
deriving Repr, DecidableEq

namespace ArrayPtr

/-- Modelled from the spec: `ArrayPtr()`, the empty handle (no allocation). -/
def null {α : Type} : ArrayPtr α := ⟨[]⟩

/-- Modelled from the spec: `ArrayPtr(size)`, "allocates storage for
`capacity` elements"; the slots are "valid (but not necessarily
constructed/meaningful)": slot `i` holds `junk i`. -/
def create {α : Type} (junk : Nat → α) (size : Nat) : ArrayPtr α :=
  ⟨(List.range size).map junk⟩

/-- Modelled from the spec: `a.Get() == b.Get()` for two different handles.
Ownership is exclusive, so two handles have the same start address only when
both hold the null allocation. -/
def sameGet {α : Type} (a b : ArrayPtr α) : Bool :=
  a.slots.isEmpty && b.slots.isEmpty

/-- Modelled from the spec: `a.swap(b)`, "exchanges owned allocations between
two handles". -/
def swap {α : Type} (a b : ArrayPtr α) : ArrayPtr α × ArrayPtr α := (b, a)

/-- Modelled from the spec: move construction, "transfers ownership of the
allocation from source to destination; source becomes a valid empty handle".
Returns the new handle and the source. -/
def moveFrom {α : Type} (other : ArrayPtr α) : ArrayPtr α × ArrayPtr α :=
  (other, null)

end ArrayPtr

end SimpleVector

/-! ## The container -/

/-- Data members of `SimpleVector<Type>`. -/
structure SimpleVector (α : Type) where
  items_ : SimpleVector.ArrayPtr α
  size_ : Nat
  capacity_ : Nat
deriving Repr, DecidableEq

namespace SimpleVector

variable {α : Type}

/-- Member initialisers `items_{}`, `size_ = 0`, `capacity_ = 0`
(`SimpleVector() noexcept = default`). -/
def empty : SimpleVector α := ⟨ArrayPtr.null, 0, 0⟩

/-- Constructor `SimpleVector(size_t size)`. -/
def ofSize [Elem α] (junk : Nat → α) (size : Nat) : SimpleVector α :=
  { items_ := ⟨fillLoop Elem.zero size 0 (ArrayPtr.create junk size).slots⟩
    size_ := size
    capacity_ := size }

/-- Constructor `SimpleVector(size_t size, const Type& value)`. -/
def ofSizeValue (junk : Nat → α) (size : Nat) (value : α) : SimpleVector α :=
  { items_ := ⟨fillLoop value size 0 (ArrayPtr.create junk size).slots⟩
    size_ := size
    capacity_ := size }

/-- Constructor `SimpleVector(std::initializer_list<Type> init)`. -/
def ofInit [Elem α] (junk : Nat → α) (init : List α) : SimpleVector α :=
  { items_ := ⟨(stdMove init.length 0 0 init (ArrayPtr.create junk init.length).slots).2⟩
    size_ := init.length
    capacity_ := init.length }

/-- Constructor `SimpleVector(ReserveProxyObj capacity)`. -/
def ofReserve (junk : Nat → α) (capacity : Nat) : SimpleVector α :=
  { items_ := ArrayPtr.create junk capacity
    size_ := 0
    capacity_ := capacity }

/-- Member `swap(SimpleVector& other)`: returns `*this` and `other`. -/
def swap (v other : SimpleVector α) : SimpleVector α × SimpleVector α :=
  let items := ArrayPtr.swap v.items_ other.items_
  ({ items_ := items.1, size_ := other.size_, capacity_ := other.capacity_ },
   { items_ := items.2, size_ := v.size_, capacity_ := v.capacity_ })

/-- Copy constructor `SimpleVector(const SimpleVector& other)`: `tmp` is built
with `other.size_` slots, receives the elements, and is swapped into the new,
still empty, object. -/
def copy [Elem α] (junk : Nat → α) (other : SimpleVector α) : SimpleVector α :=
  let tmp : SimpleVector α := ofSize junk other.size_
  let tmp := { tmp with
    items_ := ⟨(stdCopy other.size_ 0 0 other.items_.slots tmp.items_.slots).2⟩ }
  (swap empty tmp).1

/-- Move constructor `SimpleVector(SimpleVector&& other)`: returns the new
object and `other`. -/
def moveConstruct (other : SimpleVector α) : SimpleVector α × SimpleVector α :=
  let items := ArrayPtr.moveFrom other.items_
  ({ items_ := items.1, size_ := other.size_, capacity_ := other.capacity_ },
   { items_ := items.2, size_ := 0, capacity_ := 0 })

/-- Members `GetSize`, `GetCapacity`, `IsEmpty`. -/
def GetSize (v : SimpleVector α) : Nat := v.size_

def GetCapacity (v : SimpleVector α) : Nat := v.capacity_

def IsEmpty (v : SimpleVector α) : Bool := v.size_ == 0

/-- The assertion of `operator[]`: `assert(index < size_)`. -/
def index.pre (v : SimpleVector α) (index : Nat) : Prop := index < v.size_

instance (v : SimpleVector α) (i : Nat) : Decidable (index.pre v i) :=
  inferInstanceAs (Decidable (i < v.size_))

/-- Member `operator[]`: `items_[index]`; `none` stands for a read outside the
allocation. -/
def index (v : SimpleVector α) (index : Nat) : Option α := v.items_.slots[index]?

/-- The exception `std::out_of_range` thrown by `At`. -/
inductive OutOfRange where
  | out_of_range (what : String)
deriving Repr, DecidableEq

/-- Member `At(size_t index)`: the outcome (the element or the exception) and
the object after the call. -/
def At (v : SimpleVector α) (index : Nat) : Except OutOfRange (Option α) × SimpleVector α :=
  if index ≥ v.size_ then
    (.error (.out_of_range "Index is out of range"), v)
  else
    (.ok v.items_.slots[index]?, v)

/-- The assertion of `Fill`: `assert(begin_fill < end_fill)`. -/
def Fill.pre (begin_fill end_fill : Nat) : Prop := begin_fill < end_fill

instance (begin_fill end_fill : Nat) : Decidable (Fill.pre begin_fill end_fill) :=
  inferInstanceAs (Decidable (begin_fill < end_fill))

/-- Member `Fill(begin_fill, end_fill)` on a buffer: every slot of the range
receives the value of the temporary `Type()`. -/
def Fill [Elem α] (begin_fill end_fill : Nat) (buf : List α) : List α :=
  fillLoop Elem.dflt (end_fill - begin_fill) begin_fill buf

/-- Member `Clear`. -/
def Clear (v : SimpleVector α) : SimpleVector α := { v with size_ := 0 }

/-- Member `Resize(size_t new_size)`. -/
def Resize [Elem α] (junk : Nat → α) (new_size : Nat) (v : SimpleVector α) : SimpleVector α :=
  if new_size ≤ v.size_ then
    { v with size_ := new_size }
  else if new_size ≤ v.capacity_ then
    { v with
      items_ := ⟨fillLoop Elem.dflt (new_size - v.size_) v.size_ v.items_.slots⟩
      size_ := new_size }
  else if new_size > v.capacity_ then
    let vector_size := max new_size (v.capacity_ * 2 % SIZE_MOD)
    let new_vector : ArrayPtr α := ArrayPtr.create junk vector_size
    let new_vector : ArrayPtr α := ⟨Fill 0 vector_size new_vector.slots⟩
    let new_vector : ArrayPtr α := ⟨(stdMove v.size_ 0 0 v.items_.slots new_vector.slots).2⟩
    { items_ := (ArrayPtr.swap v.items_ new_vector).1
      size_ := new_size
      capacity_ := vector_size }
  else v

/-- Whether `Resize(new_size)` adopts a newly allocated buffer: it does in its
third branch (`items_.swap(new_vector)`) and in no other. -/
def Resize.adopts (new_size : Nat) (v : SimpleVector α) : Bool :=
  if new_size ≤ v.size_ then false
  else if new_size ≤ v.capacity_ then false
  else if new_size > v.capacity_ then true
  else false

/-- Member `PushBack(const Type& item)`: copy, resize the copy, write `item`
to slot `size_ - 1` of the copy, swap the copy in. -/
def PushBack [Elem α] (junk : Nat → α) (item : α) (v : SimpleVector α) : SimpleVector α :=
  let tmp := copy junk v
  let tmp := Resize junk ((tmp.size_ + 1) % SIZE_MOD) tmp
  let it := tmp.size_ - 1
  let tmp := { tmp with items_ := ⟨tmp.items_.slots.set it item⟩ }
  (swap v tmp).1

/-- Member `PushBack(Type&& item)`: resize in place and write `item` to slot
`size_ - 1`. -/
def PushBackMove [Elem α] (junk : Nat → α) (item : α) (v : SimpleVector α) : SimpleVector α :=
  let v := Resize junk ((v.size_ + 1) % SIZE_MOD) v
  let it := v.size_ - 1
  { v with items_ := ⟨v.items_.slots.set it item⟩ }

/-- The assertion of `Insert`: `assert(pos >= cbegin() && pos <= cend())`. -/
def Insert.pre (v : SimpleVector α) (pos : Nat) : Prop := pos ≤ v.size_

instance (v : SimpleVector α) (pos : Nat) : Decidable (Insert.pre v pos) :=
  inferInstanceAs (Decidable (pos ≤ v.size_))

/-- An argument bound to a parameter of type `const Type&`: a reference to an
object outside the buffer of the vector, or a reference to the element
`items_[i]` of the vector itself (`v.Insert(pos, v[i])`). -/
inductive Ref (α : Type) where
  | external (x : α)
  | slot (i : Nat)
deriving Repr, DecidableEq

/-- The value read through a reference while the buffer of the vector holds
`buf`. `valid` tells whether the buffer is still the one the reference was
taken from: after a reallocation a reference to a slot points into the
released buffer (the read is undefined behaviour in C++) and nothing is
read. -/
def Ref.read (valid : Bool) (buf : List α) : Ref α → Option α
  | .external x => some x
  | .slot i => if valid then buf[i]? else none

/-- Member `Insert(ConstIterator pos, const Type& value)`: the returned
position and the object after the call. `value` is a reference and is read
at `*pos_ = value`, after `Resize` and `std::copy_backward`; an assignment
whose right side cannot be read writes nothing. -/
def Insert [Elem α] (junk : Nat → α) (pos : Nat) (value : Ref α) (v : SimpleVector α) :
    Nat × SimpleVector α :=
  let distance := pos
  let old_size := v.size_
  let valid := !(Resize.adopts ((v.size_ + 1) % SIZE_MOD) v)
  let v := Resize junk ((v.size_ + 1) % SIZE_MOD) v
  let pos_ := distance
  let buf := backwardLoop id (old_size - pos_) old_size v.size_ v.items_.slots
  let buf :=
    match value.read valid buf with
    | some x => buf.set pos_ x
    | none => buf
  (pos_, { v with items_ := ⟨buf⟩ })

/-- Member `Insert(ConstIterator pos, Type&& value)`: the returned position
and the object after the call. An argument bound to `Type&&` is taken to be
the only reference to its object, so `value` is a value here. -/
def InsertMove [Elem α] (junk : Nat → α) (pos : Nat) (value : α) (v : SimpleVector α) :
    Nat × SimpleVector α :=
  let distance := pos
  let old_size := v.size_
  let v := Resize junk ((v.size_ + 1) % SIZE_MOD) v
  let pos_ := distance
  let buf := backwardLoop Elem.moved (old_size - pos_) old_size v.size_ v.items_.slots
  let buf := buf.set pos_ value
  (pos_, { v with items_ := ⟨buf⟩ })

/-- Member `PopBack`. -/
def PopBack (v : SimpleVector α) : SimpleVector α :=
  if v.size_ > 0 then { v with size_ := (v.size_ + SIZE_MOD - 1) % SIZE_MOD } else v

/-- The assertion of `Erase`: `assert(pos >= cbegin() && pos <= cend())`. -/
def Erase.pre (v : SimpleVector α) (pos : Nat) : Prop := pos ≤ v.size_

instance (v : SimpleVector α) (pos : Nat) : Decidable (Erase.pre v pos) :=
  inferInstanceAs (Decidable (pos ≤ v.size_))

/-- Member `Erase(ConstIterator pos)`: the returned position and the object
after the call. The assertion admits `pos = end()`, where `[pos + 1, end())`
is not a range (undefined behaviour of `std::move`): the loop then has count
`0` here and moves nothing, and `--size_` is the `size_t` decrement, which
wraps at `0`. -/
def Erase [Elem α] (pos : Nat) (v : SimpleVector α) : Nat × SimpleVector α :=
  let distance := pos
  let pos_ := distance
  let buf := forwardLoop Elem.moved (v.size_ - (pos_ + 1)) (pos_ + 1) pos_ v.items_.slots
  (pos_, { v with items_ := ⟨buf⟩, size_ := (v.size_ + SIZE_MOD - 1) % SIZE_MOD })

/-- Member `Reserve(size_t new_capacity)`. -/
def Reserve [Elem α] (junk : Nat → α) (new_capacity : Nat) (v : SimpleVector α) :
    SimpleVector α :=
  if new_capacity > v.capacity_ then
    let new_vector : SimpleVector α := ofSize junk new_capacity
    let new_items := (stdMove v.size_ 0 0 v.items_.slots new_vector.items_.slots).2
    { v with
      items_ := (ArrayPtr.swap v.items_ ⟨new_items⟩).1
      capacity_ := new_capacity }
  else v

/-- Move assignment `operator=(SimpleVector&& rhs)` for two different objects:
returns `*this` and `rhs`. -/
def moveAssign [Elem α] (junk : Nat → α) (v rhs : SimpleVector α) :
    SimpleVector α × SimpleVector α :=
  if !(ArrayPtr.sameGet v.items_ rhs.items_) then
    let v := Resize junk rhs.size_ v
    let r := stdMove rhs.size_ 0 0 rhs.items_.slots v.items_.slots
    ({ v with items_ := ⟨r.2⟩ }, { rhs with items_ := ⟨r.1⟩ })
  else (v, rhs)

/-- Copy assignment `operator=(const SimpleVector& rhs)` for two different
objects (`&rhs != this`). -/
def copyAssign [Elem α] (junk : Nat → α) (v rhs : SimpleVector α) : SimpleVector α :=
  let rhs_copy := copy junk rhs
  (swap v rhs_copy).1

/-- Algorithm `std::equal(first1, last1, first2, last2, p)` on two ranges. -/
def stdEqual (p : α → α → Bool) : List α → List α → Bool
  | [], [] => true
  | x :: xs, y :: ys => p x y && stdEqual p xs ys
  | _, _ => false

/-- The range `[begin(), end())`: the live elements in index order. -/
def toList (v : SimpleVector α) : List α := v.items_.slots.take v.size_

/-- Free `operator==`. -/
def eq [BEq α] (lhs rhs : SimpleVector α) : Bool :=
  stdEqual (fun x y => x == y) lhs.toList rhs.toList

/-- Free `operator!=`. -/
def ne [BEq α] (lhs rhs : SimpleVector α) : Bool := !(eq lhs rhs)

/-- Algorithm `std::lexicographical_compare(first1, last1, first2, last2, comp)`:
`for (; first1 != last1 && first2 != last2; ++first1, ++first2)`
`{ if (comp(*first1, *first2)) return true; if (comp(*first2, *first1)) return false; }`
`return first1 == last1 && first2 != last2;`. -/
def stdLexicographicalCompare (comp : α → α → Bool) : List α → List α → Bool
  | x :: xs, y :: ys =>
    if comp x y then true
    else if comp y x then false
    else stdLexicographicalCompare comp xs ys
  | [], _ :: _ => true
  | _, [] => false

/-- Free `operator<`. -/
def lt [LT α] [∀ a b : α, Decidable (a < b)] (lhs rhs : SimpleVector α) : Bool :=
  stdLexicographicalCompare (fun x y => decide (x < y)) lhs.toList rhs.toList

/-- Free `operator>`: `rhs < lhs`. -/
def gt [LT α] [∀ a b : α, Decidable (a < b)] (lhs rhs : SimpleVector α) : Bool :=
  lt rhs lhs

/-- Free `operator<=`: `!(lhs > rhs)`. -/
def le [LT α] [∀ a b : α, Decidable (a < b)] (lhs rhs : SimpleVector α) : Bool :=
  !(gt lhs rhs)

/-- Free `operator>=`: `!(lhs < rhs)`. -/
def ge [LT α] [∀ a b : α, Decidable (a < b)] (lhs rhs : SimpleVector α) : Bool :=
  !(lt lhs rhs)

/-! ## Buffer replacement -/

/-- Whether `PushBack(const Type&)` adopts a newly allocated buffer: `tmp` is
built in the call (copy constructor, then `Resize`) and `this->swap(tmp)` is
not under a condition. -/
def PushBack.adopts (_v : SimpleVector α) : Bool := true

/-- Whether `PushBack(Type&&)` adopts a newly allocated buffer: when its
`Resize(size_ + 1)` does. -/
def PushBackMove.adopts (v : SimpleVector α) : Bool :=
  Resize.adopts ((v.size_ + 1) % SIZE_MOD) v

/-- One call of `push_back`: which overload, and the argument. -/
inductive PushCall (α : Type) where
  | byCopy (item : α)
  | byMove (item : α)
deriving Repr, DecidableEq

/-- The vector after one call of `push_back`. -/
def PushCall.run [Elem α] (junk : Nat → α) : PushCall α → SimpleVector α → SimpleVector α
  | .byCopy item, v => PushBack junk item v
  | .byMove item, v => PushBackMove junk item v

/-- Whether one call of `push_back` adopts a newly allocated buffer. -/
def PushCall.adopts : PushCall α → SimpleVector α → Bool
  | .byCopy _, v => PushBack.adopts v
  | .byMove _, v => PushBackMove.adopts v

/-- A sequence of `push_back` calls, first call first: the number of calls
that adopted a newly allocated buffer, and the vector at the end. -/
def runPushCalls [Elem α] (junk : Nat → α) : List (PushCall α) → SimpleVector α →
    Nat × SimpleVector α
  | [], v => (0, v)
  | c :: cs, v =>
    let r := runPushCalls junk cs (c.run junk v)
    ((if c.adopts v then 1 else 0) + r.1, r.2)

/-! ## Representation invariant -/

/-- The state of a vector that exists in memory: the buffer has exactly
`capacity_` slots, `size_ ≤ capacity_`, and the allocation is one the platform
can make (at most `PTRDIFF_MAX` slots). -/
structure WF (v : SimpleVector α) : Prop where
  owns : v.items_.slots.length = v.capacity_
  inv : v.size_ ≤ v.capacity_
  fits : v.capacity_ ≤ PTRDIFF_MAX

/-! ## Objects in memory

The members above act on the value of one vector. To tell a buffer of its own
from a shared one, a vector is here an object whose `items_` is the address
of a buffer in memory. -/

/-- The buffers in memory, by address: the `k`-th allocation has address `k`.
A released buffer keeps its address, so no address is given out twice. -/
abbrev Memory (α : Type) := List (List α)

/-- A `SimpleVector` object as it lies in memory: `items_` holds the address
of the buffer, `none` for the null pointer. -/
structure Object where
  items_ : Option Nat
  size_ : Nat
  capacity_ : Nat
deriving Repr, DecidableEq

/-- The slots found at an address; the null pointer has none. -/
def Memory.buffer (mem : Memory α) : Option Nat → List α
  | none => []
  | some p => (mem[p]?).getD []

/-- The address is null or the address of a buffer in memory. -/
def Memory.Points (mem : Memory α) (q : Option Nat) : Prop :=
  ∀ p, q = some p → p < mem.length

/-- Modelled from the spec: `ArrayPtr(size)` followed by the writes that leave
`slots` in the new buffer. The allocation of no slots is the null
allocation; every other allocation has a new address. -/
def Memory.allocate (mem : Memory α) (slots : List α) : Memory α × Option Nat :=
  if slots.isEmpty then (mem, none) else (mem ++ [slots], some mem.length)

/-- The writes through the pointer `p` that leave `slots` in its buffer. -/
def Memory.write (mem : Memory α) (p : Option Nat) (slots : List α) : Memory α :=
  match p with
  | none => mem
  | some p => mem.set p slots

/-- The value of an object: its members, with the buffer read from memory. -/
def Object.load (mem : Memory α) (o : Object) : SimpleVector α :=
  ⟨⟨Memory.buffer mem o.items_⟩, o.size_, o.capacity_⟩

/-- A member function called on the object `o`: `effect` is what it does to
the value of the object. When `adopts` holds, it ends with `items_` pointing
to a buffer allocated during the call (the former buffer is released and not
written to again); otherwise all its writes go through `items_`. -/
def Object.call (mem : Memory α) (o : Object) (effect : SimpleVector α → SimpleVector α)
    (adopts : SimpleVector α → Bool) : Memory α × Object :=
  let v := o.load mem
  let w := effect v
  if adopts v then
    let r := Memory.allocate mem w.items_.slots
    (r.1, ⟨r.2, w.size_, w.capacity_⟩)
  else
    (Memory.write mem o.items_ w.items_.slots, ⟨o.items_, w.size_, w.capacity_⟩)

/-- Copy constructor `SimpleVector(const SimpleVector& other)` in memory:
`tmp(other.size_)` allocates a buffer, `std::copy` fills it from the buffer of
`other`, and `swap` hands it to the new object. Returns the memory and the
new object; `other` is read only. -/
def Object.copyConstruct [Elem α] (junk : Nat → α) (mem : Memory α) (other : Object) :
    Memory α × Object :=
  let w := copy junk (other.load mem)
  let r := Memory.allocate mem w.items_.slots
  (r.1, ⟨r.2, w.size_, w.capacity_⟩)

/-- Copy assignment `operator=(const SimpleVector& rhs)` in memory for
`&rhs != this`: `rhs_copy` is made by the copy constructor and swapped with
the object, which goes on with the members of `rhs_copy`; the former buffer
of the object is released with `rhs_copy`. -/
def Object.copyAssign [Elem α] (junk : Nat → α) (mem : Memory α) (_o rhs : Object) :
    Memory α × Object :=
  let rhs_copy := Object.copyConstruct junk mem rhs
  (rhs_copy.1, rhs_copy.2)

/-- The write `v[index] = x` through the reference that `operator[]`
returns. -/
def assign (index : Nat) (x : α) (v : SimpleVector α) : SimpleVector α :=
  { v with items_ := ⟨v.items_.slots.set index x⟩ }

/-- A mutation of a vector: element write, `push_back` by copy or by move,
`Resize`, `Erase`. -/
inductive Mutation (α : Type) where
  | assign (index : Nat) (x : α)
  | pushBack (item : α)
  | pushBackMove (item : α)
  | resize (new_size : Nat)
  | erase (pos : Nat)
deriving Repr, DecidableEq

/-- What a mutation does to the value of the vector. -/
def Mutation.effect [Elem α] (junk : Nat → α) : Mutation α → SimpleVector α → SimpleVector α
  | .assign index x, v => SimpleVector.assign index x v
  | .pushBack item, v => PushBack junk item v
  | .pushBackMove item, v => PushBackMove junk item v
  | .resize new_size, v => Resize junk new_size v
  | .erase pos, v => (Erase pos v).2

/-- Whether a mutation ends with a newly allocated buffer: an element write
and `Erase` never allocate. -/
def Mutation.adopts : Mutation α → SimpleVector α → Bool
  | .assign _ _, _ => false
  | .pushBack _, v => PushBack.adopts v
  | .pushBackMove _, v => PushBackMove.adopts v
  | .resize new_size, v => Resize.adopts new_size v
  | .erase _, _ => false

/-- A mutation called on an object in memory. -/
def Object.mutate [Elem α] (junk : Nat → α) (mem : Memory α) (o : Object) (m : Mutation α) :
    Memory α × Object :=
  Object.call mem o (m.effect junk) m.adopts

/-- An object in memory whose pointer is null or points to a buffer, and whose
value satisfies the representation invariant. -/
structure Object.Valid (mem : Memory α) (o : Object) : Prop where
  points : Memory.Points mem o.items_
  wf : (o.load mem).WF

/-- The invariant of the Dynamic Array in the spec: `size ≤ capacity`. -/
def Inv (v : SimpleVector α) : Prop := v.size_ ≤ v.capacity_

instance (v : SimpleVector α) : Decidable v.Inv :=
  inferInstanceAs (Decidable (v.size_ ≤ v.capacity_))

/-! ## Concrete inputs -/

/-- A content of fresh allocations that differs from every value written. -/
def exampleJunk : Nat → Int := fun i => 100 + i

/-- The vector `[1, 2, 3]` with capacity 4, as three `PushBack` of literals
build it. -/
def exampleVector : SimpleVector Int := ⟨⟨[1, 2, 3, 0]⟩, 3, 4⟩

/-- The vector `[1, 2, 3]` with capacity 3, as the literal list `{1, 2, 3}`
builds it. -/
def fullVector : SimpleVector Int := ⟨⟨[1, 2, 3]⟩, 3, 3⟩

/-- A memory with one buffer, the one of `exampleVector`, at address 0. -/
def exampleMemory : Memory Int := [[1, 2, 3, 0]]

/-- The object in `exampleMemory` whose value is `exampleVector`. -/
def exampleObject : Object := ⟨some 0, 3, 4⟩

/-- The scenario of the spec, step 1: `push_back(1)`, `push_back(2)`,
`push_back(3)` on a vector made by the default constructor. -/
def scenarioPushed : SimpleVector Int :=
  PushBackMove exampleJunk 3 (PushBackMove exampleJunk 2 (PushBackMove exampleJunk 1 empty))

/-- The scenario of the spec, step 2: `Insert(begin() + 1, 9)`; the literal
selects the overload `Insert(ConstIterator, Type&&)`. -/
def scenarioInserted : Nat × SimpleVector Int := InsertMove exampleJunk 1 9 scenarioPushed

/-- The scenario of the spec, step 3: `Erase(begin() + 1)`. -/
def scenarioErased : Nat × SimpleVector Int := Erase 1 scenarioInserted.2

/-- The scenario of the spec, step 4: `Reserve(10)`. -/
def scenarioReserved : SimpleVector Int := Reserve exampleJunk 10 scenarioErased.2

/-- The scenario of the spec, step 5: `Resize(1)`. -/
def scenarioResized : SimpleVector Int := Resize exampleJunk 1 scenarioReserved

end SimpleVector

namespace SimpleVector

variable {α : Type}

/-! ## The loops, slot by slot -/

theorem fillLoop_length (x : α) (count : Nat) :
    ∀ (first : Nat) (buf : List α), (fillLoop x count first buf).length = buf.length := by
  induction count with
  | zero => intro first buf; rfl
  | succ k ih => intro first buf; simp [fillLoop, ih]

theorem fillLoop_getElem? (x : α) (count : Nat) :
    ∀ (first : Nat) (buf : List α) (j : Nat),
      (fillLoop x count first buf)[j]? =
        if first ≤ j ∧ j < first + count ∧ j < buf.length then some x else buf[j]? := by
  induction count with
  | zero =>
    intro first buf j
    rw [if_neg (by omega)]
    rfl
  | succ k ih =>
    intro first buf j
    simp only [fillLoop, ih, List.length_set, List.getElem?_set]
    split_ifs <;>
      first
      | rfl
      | (exfalso; omega)
      | (symm; apply List.getElem?_eq_none; omega)

theorem transferLoop_length_snd (f : α → α) (count : Nat) :
    ∀ (first d : Nat) (src dst : List α),
      (transferLoop f count first d src dst).2.length = dst.length := by
  induction count with
  | zero => intro first d src dst; rfl
  | succ k ih =>
    intro first d src dst
    simp only [transferLoop]
    split
    · simp [ih]
    · rfl

theorem transferLoop_length_fst (f : α → α) (count : Nat) :
    ∀ (first d : Nat) (src dst : List α),
      (transferLoop f count first d src dst).1.length = src.length := by
  induction count with
  | zero => intro first d src dst; rfl
  | succ k ih =>
    intro first d src dst
    simp only [transferLoop]
    split
    · simp [ih]
    · rfl

theorem transferLoop_getElem?_snd (f : α → α) (count : Nat) :
    ∀ (first d : Nat) (src dst : List α) (j : Nat), first + count ≤ src.length →
      (transferLoop f count first d src dst).2[j]? =
        if d ≤ j ∧ j < d + count ∧ j < dst.length then src[first + (j - d)]? else dst[j]? := by
  induction count with
  | zero =>
    intro first d src dst j _
    rw [if_neg (by omega)]
    rfl
  | succ k ih =>
    intro first d src dst j h
    have hlt : first < src.length := by omega
    have hx : src[first]? = some src[first] := List.getElem?_eq_getElem hlt
    simp only [transferLoop, hx]
    rw [ih _ _ _ _ _ (by simp; omega)]
    simp only [List.length_set, List.getElem?_set]
    by_cases h1 : d = j
    · subst h1
      simp [hx]
      split_ifs with h2
      · rfl
      · exact (List.getElem?_eq_none (by omega)).symm
    · have e : d + 1 ≤ j → first + 1 + (j - (d + 1)) = first + (j - d) := by omega
      split_ifs <;> first | rfl | (exfalso; omega) | (rw [e (by omega)])

theorem forwardLoop_length (f : α → α) (count : Nat) :
    ∀ (first d : Nat) (buf : List α), (forwardLoop f count first d buf).length = buf.length := by
  induction count with
  | zero => intro first d buf; rfl
  | succ k ih =>
    intro first d buf
    simp only [forwardLoop]
    split
    · simp [ih]
    · rfl

theorem forwardLoop_getElem? (f : α → α) (count : Nat) :
    ∀ (first d : Nat) (buf : List α) (t : Nat), d < first → first + count ≤ buf.length →
      (forwardLoop f count first d buf)[t]? =
        if d ≤ t ∧ t < d + count then buf[t - d + first]?
        else if first ≤ t ∧ t < first + count then buf[t]?.map f
        else buf[t]? := by
  induction count with
  | zero =>
    intro first d buf t _ _
    rw [if_neg (by omega), if_neg (by omega)]
    rfl
  | succ k ih =>
    intro first d buf t hd h
    have hlt : first < buf.length := by omega
    have hx : buf[first]? = some buf[first] := List.getElem?_eq_getElem hlt
    simp only [forwardLoop, hx]
    rw [ih _ _ _ _ (by omega) (by simp; omega)]
    simp only [List.length_set, List.getElem?_set]
    have e : d + 1 ≤ t → t - (d + 1) + (first + 1) = t - d + first := by omega
    by_cases h1 : d = t
    · subst h1
      rw [if_neg (by omega), if_neg (by omega), if_pos rfl, if_pos (by omega), if_pos (by omega)]
      simp [hx]
    · by_cases h2 : first = t
      · subst h2
        split_ifs <;> first | rfl | (exfalso; omega) | (rw [e (by omega)]) | simp [hx]
      · split_ifs <;> first | rfl | (exfalso; omega) | (rw [e (by omega)])

theorem backwardLoop_length (f : α → α) (count : Nat) :
    ∀ (last d : Nat) (buf : List α), (backwardLoop f count last d buf).length = buf.length := by
  induction count with
  | zero => intro last d buf; rfl
  | succ k ih =>
    intro last d buf
    simp only [backwardLoop]
    split
    · simp [ih]
    · rfl

theorem backwardLoop_getElem? (f : α → α) (count : Nat) :
    ∀ (last d : Nat) (buf : List α) (t : Nat), last < d → count ≤ last → d ≤ buf.length →
      (backwardLoop f count last d buf)[t]? =
        if d - count ≤ t ∧ t < d then buf[t - (d - last)]?
        else if last - count ≤ t ∧ t < last then buf[t]?.map f
        else buf[t]? := by
  induction count with
  | zero =>
    intro last d buf t _ _ _
    rw [if_neg (by omega), if_neg (by omega)]
    rfl
  | succ k ih =>
    intro last d buf t hd hc h
    have hlt : last - 1 < buf.length := by omega
    have hx : buf[last - 1]? = some buf[last - 1] := List.getElem?_eq_getElem hlt
    simp only [backwardLoop, hx]
    rw [ih _ _ _ _ (by omega) (by omega) (by simp; omega)]
    simp only [List.length_set, List.getElem?_set]
    have e : d - 1 - (last - 1) = d - last := by omega
    rw [e]
    by_cases h1 : d - 1 = t
    · subst h1
      have e2 : d - 1 - (d - last) = last - 1 := by omega
      rw [if_neg (by omega), if_neg (by omega), if_pos rfl, if_pos (by omega), if_pos (by omega),
        e2, hx]
    · by_cases h2 : last - 1 = t
      · subst h2
        split_ifs <;> first | rfl | (exfalso; omega) | simp [hx]
      · split_ifs <;> first | rfl | (exfalso; omega)

/-! ## Resize -/

theorem create_length (junk : Nat → α) (size : Nat) :
    (ArrayPtr.create junk size).slots.length = size := by
  simp [ArrayPtr.create]

theorem Resize_size [Elem α] (junk : Nat → α) (m : Nat) (v : SimpleVector α) :
    (Resize junk m v).size_ = m := by
  unfold Resize
  split_ifs <;> first | rfl | (exfalso; omega)

theorem Resize_capacity [Elem α] (junk : Nat → α) (m : Nat) (v : SimpleVector α)
    (hi : v.size_ ≤ v.capacity_) (hf : v.capacity_ ≤ PTRDIFF_MAX) :
    (Resize junk m v).capacity_ = if m ≤ v.capacity_ then v.capacity_ else max m (2 * v.capacity_) := by
  have e : v.capacity_ * 2 % SIZE_MOD = 2 * v.capacity_ := by
    simp only [SIZE_MOD, PTRDIFF_MAX] at *
    omega
  unfold Resize
  split_ifs <;> first | rfl | (exfalso; omega) | (simp only [e])

/-- The assertion of `Fill` holds at its call in the third branch of `Resize`. -/
theorem Resize_Fill_pre (m : Nat) (v : SimpleVector α) (h : m > v.capacity_) :
    Fill.pre 0 (max m (v.capacity_ * 2 % SIZE_MOD)) := by
  unfold Fill.pre
  omega

theorem Resize_length [Elem α] (junk : Nat → α) (m : Nat) (v : SimpleVector α)
    (ho : v.items_.slots.length = v.capacity_) :
    (Resize junk m v).items_.slots.length = (Resize junk m v).capacity_ := by
  unfold Resize
  split_ifs
  · exact ho
  · simp [fillLoop_length, ho]
  · simp [ArrayPtr.swap, stdMove, transferLoop_length_snd, Fill, fillLoop_length, create_length]
  · exact ho

theorem Resize_getElem? [Elem α] (junk : Nat → α) (m : Nat) (v : SimpleVector α)
    (ho : v.items_.slots.length = v.capacity_) (hi : v.size_ ≤ v.capacity_) (i : Nat)
    (h : i < m) :
    (Resize junk m v).items_.slots[i]? =
      if i < v.size_ then v.items_.slots[i]? else some Elem.dflt := by
  unfold Resize
  by_cases h1 : m ≤ v.size_
  · rw [if_pos h1, if_pos (by omega)]
  · rw [if_neg h1]
    by_cases h2 : m ≤ v.capacity_
    · rw [if_pos h2]
      simp only [fillLoop_getElem?, ho]
      by_cases h3 : i < v.size_
      · rw [if_neg (by omega), if_pos h3]
      · rw [if_pos (by omega), if_neg h3]
    · rw [if_neg h2, if_pos (by omega)]
      simp only [ArrayPtr.swap, stdMove, Fill]
      rw [transferLoop_getElem?_snd _ _ _ _ _ _ _ (by omega)]
      simp only [fillLoop_length, create_length, fillLoop_getElem?]
      by_cases h3 : i < v.size_
      · rw [if_pos (by omega), if_pos h3]
        simp
      · rw [if_neg (by omega), if_pos (by omega), if_neg h3]

theorem toList_length (v : SimpleVector α) (ho : v.items_.slots.length = v.capacity_)
    (hi : v.size_ ≤ v.capacity_) : v.toList.length = v.size_ := by
  simp only [toList, List.length_take]
  omega

theorem toList_getElem? (v : SimpleVector α) (i : Nat) :
    v.toList[i]? = if i < v.size_ then v.items_.slots[i]? else none := by
  simp only [toList, List.getElem?_take]

theorem toList_eq_of (v : SimpleVector α) (l : List α) (hlen : l.length = v.size_)
    (h : ∀ i, i < v.size_ → v.items_.slots[i]? = l[i]?) : v.toList = l := by
  apply List.ext_getElem?
  intro i
  rw [toList_getElem?]
  split_ifs with h1
  · exact h i h1
  · exact (List.getElem?_eq_none (by omega)).symm

/-- C1. `Resize(m)` on a vector of size `n` and capacity `c` leaves size `m`
and the first `min n m` elements as they were; with `m ≤ n` the capacity stays
`c`; with `n < m ≤ c` the capacity stays `c` and the elements at `[n, m)` are
the default value; with `m > c` the capacity becomes `max m (2 * c)` and the
elements at `[n, m)` are the default value. -/
theorem Resize_contract [Elem α] (junk : Nat → α) (v : SimpleVector α) (m : Nat) (h : v.WF) :
    (Resize junk m v).size_ = m ∧
    (Resize junk m v).toList.length = m ∧
    (Resize junk m v).toList.take (min v.size_ m) = v.toList.take (min v.size_ m) ∧
    (m ≤ v.size_ → (Resize junk m v).capacity_ = v.capacity_) ∧
    (v.size_ < m → m ≤ v.capacity_ →
      (Resize junk m v).capacity_ = v.capacity_ ∧
      ∀ i, v.size_ ≤ i → i < m → (Resize junk m v).toList[i]? = some Elem.dflt) ∧
    (v.capacity_ < m →
      (Resize junk m v).capacity_ = max m (2 * v.capacity_) ∧
      ∀ i, v.size_ ≤ i → i < m → (Resize junk m v).toList[i]? = some Elem.dflt) := by
  obtain ⟨ho, hi, hf⟩ := h
  have hs := Resize_size junk m v
  have hc := Resize_capacity junk m v hi hf
  have hl := Resize_length junk m v ho
  have hfill : ∀ i, v.size_ ≤ i → i < m → (Resize junk m v).toList[i]? = some Elem.dflt := by
    intro i h1 h2
    rw [toList_getElem?, hs, if_pos h2, Resize_getElem? junk m v ho hi i h2, if_neg (by omega)]
  have hcm : m ≤ (Resize junk m v).capacity_ := by
    rw [hc]
    split_ifs <;> omega
  refine ⟨hs, ?_, ?_, ?_, ?_, ?_⟩
  · rw [toList_length _ hl (by omega), hs]
  · apply List.ext_getElem?
    intro i
    simp only [List.getElem?_take, toList_getElem?, hs]
    by_cases h1 : i < min v.size_ m
    · rw [if_pos h1, if_pos h1, if_pos (by omega), if_pos (by omega),
        Resize_getElem? junk m v ho hi i (by omega), if_pos (by omega)]
    · rw [if_neg h1, if_neg h1]
  · intro h1
    rw [hc, if_pos (by omega)]
  · intro h1 h2
    exact ⟨by rw [hc, if_pos h2], hfill⟩
  · intro h1
    exact ⟨by rw [hc, if_neg (by omega)], hfill⟩

/-- Witness of C1: a vector of size 3 and capacity 4 resized to 5. -/
theorem Resize_contract_witness :
    exampleVector.WF ∧
    (Resize exampleJunk 5 exampleVector).size_ = 5 ∧
    (Resize exampleJunk 5 exampleVector).capacity_ = max 5 (2 * exampleVector.capacity_) :=
  have wf : exampleVector.WF := ⟨by decide, by decide, by decide⟩
  have h := Resize_contract exampleJunk exampleVector 5 wf
  ⟨wf, h.1, (h.2.2.2.2.2 (by decide)).1⟩

/-! ## PushBack -/

theorem size_succ_mod (v : SimpleVector α) (hi : v.size_ ≤ v.capacity_)
    (hf : v.capacity_ ≤ PTRDIFF_MAX) : (v.size_ + 1) % SIZE_MOD = v.size_ + 1 := by
  simp only [SIZE_MOD, PTRDIFF_MAX] at *
  omega

theorem ofSize_length [Elem α] (junk : Nat → α) (size : Nat) :
    (ofSize junk size).items_.slots.length = size := by
  simp [ofSize, fillLoop_length, create_length]

theorem copy_size [Elem α] (junk : Nat → α) (v : SimpleVector α) :
    (copy junk v).size_ = v.size_ := rfl

theorem copy_capacity [Elem α] (junk : Nat → α) (v : SimpleVector α) :
    (copy junk v).capacity_ = v.size_ := rfl

theorem copy_length [Elem α] (junk : Nat → α) (v : SimpleVector α) :
    (copy junk v).items_.slots.length = v.size_ := by
  simp [copy, swap, ArrayPtr.swap, stdCopy, transferLoop_length_snd, ofSize_length]

theorem copy_getElem? [Elem α] (junk : Nat → α) (v : SimpleVector α)
    (ho : v.items_.slots.length = v.capacity_) (hi : v.size_ ≤ v.capacity_) (i : Nat)
    (h : i < v.size_) : (copy junk v).items_.slots[i]? = v.items_.slots[i]? := by
  simp only [copy, swap, ArrayPtr.swap, stdCopy]
  rw [transferLoop_getElem?_snd _ _ _ _ _ _ _ (by omega), ofSize_length, if_pos (by omega)]
  simp

/-- The live elements after a write of `item` to slot `size_ - 1` of a vector
`w` that has one element more than `v` and agrees with `v` on the slots of
`v`. -/
theorem toList_set_last (v w : SimpleVector α) (item : α)
    (ho : v.items_.slots.length = v.capacity_) (hi : v.size_ ≤ v.capacity_)
    (hs : w.size_ = v.size_ + 1) (hl : v.size_ < w.items_.slots.length)
    (h : ∀ i, i < v.size_ → w.items_.slots[i]? = v.items_.slots[i]?) :
    toList { w with items_ := ⟨w.items_.slots.set (w.size_ - 1) item⟩ } = v.toList ++ [item] := by
  apply toList_eq_of
  · simp [toList_length v ho hi, hs]
  · intro i hlt
    simp only [hs, Nat.add_sub_cancel] at hlt ⊢
    rw [List.getElem?_set, List.getElem?_append, toList_length v ho hi, toList_getElem?]
    by_cases h1 : i < v.size_
    · rw [if_neg (by omega), if_pos h1, if_pos h1, h i h1]
    · have e : i = v.size_ := by omega
      subst e
      simp [hl]

theorem PushBack_size [Elem α] (junk : Nat → α) (item : α) (v : SimpleVector α)
    (hi : v.size_ ≤ v.capacity_) (hf : v.capacity_ ≤ PTRDIFF_MAX) :
    (PushBack junk item v).size_ = v.size_ + 1 := by
  simp only [PushBack, swap, ArrayPtr.swap, Resize_size, copy_size, size_succ_mod v hi hf]

theorem PushBack_capacity [Elem α] (junk : Nat → α) (item : α) (v : SimpleVector α)
    (hi : v.size_ ≤ v.capacity_) (hf : v.capacity_ ≤ PTRDIFF_MAX) :
    (PushBack junk item v).capacity_ = max (v.size_ + 1) (2 * v.size_) := by
  simp only [PushBack, swap, ArrayPtr.swap, copy_size, size_succ_mod v hi hf]
  rw [Resize_capacity junk _ _ (by rw [copy_size, copy_capacity])
    (by rw [copy_capacity]; omega), copy_capacity, if_neg (by omega)]

theorem PushBack_toList [Elem α] (junk : Nat → α) (item : α) (v : SimpleVector α)
    (ho : v.items_.slots.length = v.capacity_) (hi : v.size_ ≤ v.capacity_)
    (hf : v.capacity_ ≤ PTRDIFF_MAX) :
    (PushBack junk item v).toList = v.toList ++ [item] := by
  have hcc : (copy junk v).size_ ≤ (copy junk v).capacity_ := by rw [copy_size, copy_capacity]
  have hcf : (copy junk v).capacity_ ≤ PTRDIFF_MAX := by rw [copy_capacity]; omega
  have key := toList_set_last v (Resize junk (v.size_ + 1) (copy junk v)) item ho hi
    (Resize_size _ _ _)
    (by
      rw [Resize_length _ _ _ (by rw [copy_length, copy_capacity]),
        Resize_capacity _ _ _ hcc hcf, copy_capacity, if_neg (by omega)]
      omega)
    (by
      intro i h
      rw [Resize_getElem? _ _ _ (by rw [copy_length, copy_capacity]) hcc i (by omega),
        copy_size, if_pos h, copy_getElem? junk v ho hi i h])
  simpa only [PushBack, swap, ArrayPtr.swap, copy_size, size_succ_mod v hi hf] using key

theorem PushBackMove_size [Elem α] (junk : Nat → α) (item : α) (v : SimpleVector α)
    (hi : v.size_ ≤ v.capacity_) (hf : v.capacity_ ≤ PTRDIFF_MAX) :
    (PushBackMove junk item v).size_ = v.size_ + 1 := by
  simp only [PushBackMove, Resize_size, size_succ_mod v hi hf]

theorem PushBackMove_capacity [Elem α] (junk : Nat → α) (item : α) (v : SimpleVector α)
    (hi : v.size_ ≤ v.capacity_) (hf : v.capacity_ ≤ PTRDIFF_MAX) :
    (PushBackMove junk item v).capacity_ = (Resize junk (v.size_ + 1) v).capacity_ := by
  simp only [PushBackMove, size_succ_mod v hi hf]

theorem PushBackMove_toList [Elem α] (junk : Nat → α) (item : α) (v : SimpleVector α)
    (ho : v.items_.slots.length = v.capacity_) (hi : v.size_ ≤ v.capacity_)
    (hf : v.capacity_ ≤ PTRDIFF_MAX) :
    (PushBackMove junk item v).toList = v.toList ++ [item] := by
  have key := toList_set_last v (Resize junk (v.size_ + 1) v) item ho hi
    (Resize_size _ _ _)
    (by
      rw [Resize_length _ _ _ ho, Resize_capacity _ _ _ hi hf]
      split_ifs <;> omega)
    (by
      intro i h
      rw [Resize_getElem? _ _ _ ho hi i (by omega), if_pos h])
  simpa only [PushBackMove, size_succ_mod v hi hf] using key

/-- C2. `push_back(v)`, by copy and by move, on a vector with live elements
`e_0..e_{n-1}` gives a vector of size `n + 1` whose live elements are
`e_0..e_{n-1}` followed by `v`, so `v` is at position `n`. -/
theorem PushBack_appends [Elem α] (junk : Nat → α) (v : SimpleVector α) (item : α)
    (h : v.WF) :
    ((PushBack junk item v).size_ = v.size_ + 1 ∧
      (PushBack junk item v).toList = v.toList ++ [item] ∧
      (PushBack junk item v).toList[v.size_]? = some item) ∧
    ((PushBackMove junk item v).size_ = v.size_ + 1 ∧
      (PushBackMove junk item v).toList = v.toList ++ [item] ∧
      (PushBackMove junk item v).toList[v.size_]? = some item) := by
  obtain ⟨ho, hi, hf⟩ := h
  have hlen := toList_length v ho hi
  have hat : (v.toList ++ [item])[v.size_]? = some item := by
    rw [List.getElem?_append, hlen, if_neg (by omega)]
    simp
  refine ⟨⟨PushBack_size junk item v hi hf, PushBack_toList junk item v ho hi hf, ?_⟩,
    ⟨PushBackMove_size junk item v hi hf, PushBackMove_toList junk item v ho hi hf, ?_⟩⟩
  · rw [PushBack_toList junk item v ho hi hf, hat]
  · rw [PushBackMove_toList junk item v ho hi hf, hat]

/-- Witness of C2: `push_back(7)` on `[1, 2, 3]`. -/
theorem PushBack_appends_witness :
    exampleVector.WF ∧
    (PushBack exampleJunk 7 exampleVector).toList = exampleVector.toList ++ [7] ∧
    (PushBackMove exampleJunk 7 exampleVector).toList = exampleVector.toList ++ [7] :=
  have wf : exampleVector.WF := ⟨by decide, by decide, by decide⟩
  have h := PushBack_appends exampleJunk exampleVector 7 wf
  ⟨wf, h.1.2.1, h.2.2.1⟩

/-- C3. The vector of size 1 and capacity 10 built by `Reserve(10)` and one
`PushBack` of a literal: `Resize(2)` and `PushBack(Type&&)` keep the capacity
10, `PushBack(const Type&)` leaves the capacity 2. -/
theorem PushBack_copy_capacity_at_reserved :
    (PushBackMove exampleJunk 1 (ofReserve exampleJunk 10)).size_ = 1 ∧
    (PushBackMove exampleJunk 1 (ofReserve exampleJunk 10)).capacity_ = 10 ∧
    (Resize exampleJunk 2 (PushBackMove exampleJunk 1 (ofReserve exampleJunk 10))).capacity_ = 10 ∧
    (PushBackMove exampleJunk 7
      (PushBackMove exampleJunk 1 (ofReserve exampleJunk 10))).capacity_ = 10 ∧
    (PushBack exampleJunk 7
      (PushBackMove exampleJunk 1 (ofReserve exampleJunk 10))).capacity_ = 2 := by
  decide

/-! ## Insert -/

theorem Resize_succ_length_gt [Elem α] (junk : Nat → α) (v : SimpleVector α)
    (ho : v.items_.slots.length = v.capacity_) (hi : v.size_ ≤ v.capacity_)
    (hf : v.capacity_ ≤ PTRDIFF_MAX) :
    v.size_ + 1 ≤ (Resize junk (v.size_ + 1) v).items_.slots.length := by
  rw [Resize_length _ _ _ ho, Resize_capacity _ _ _ hi hf]
  split_ifs <;> omega

/-- The live elements after the body of `Insert`: `Resize(size_ + 1)`, the
backward loop over `[pos, old_size)` and the write of `value` at `pos`. -/
theorem toList_shift_right [Elem α] (f : α → α) (junk : Nat → α) (p : Nat) (value : α)
    (v : SimpleVector α) (ho : v.items_.slots.length = v.capacity_)
    (hi : v.size_ ≤ v.capacity_) (hf : v.capacity_ ≤ PTRDIFF_MAX) (hp : p ≤ v.size_) :
    toList { Resize junk (v.size_ + 1) v with
      items_ := ⟨(backwardLoop f (v.size_ - p) v.size_ (Resize junk (v.size_ + 1) v).size_
        (Resize junk (v.size_ + 1) v).items_.slots).set p value⟩ } =
      v.toList.take p ++ value :: v.toList.drop p := by
  have hlen := toList_length v ho hi
  have hgt := Resize_succ_length_gt junk v ho hi hf
  apply toList_eq_of
  · simp only [List.length_append, List.length_take, List.length_cons, List.length_drop, hlen,
      Resize_size]
    omega
  · intro t ht
    simp only [Resize_size] at ht ⊢
    rw [List.getElem?_set, backwardLoop_length,
      backwardLoop_getElem? f _ _ _ _ t (by omega) (by omega) hgt,
      List.getElem?_append, List.length_take, hlen, List.getElem?_take, toList_getElem?]
    by_cases h1 : t < p
    · rw [if_neg (by omega), if_neg (by omega), if_neg (by omega),
        Resize_getElem? _ _ _ ho hi t (by omega), if_pos (by omega), if_pos (by omega),
        if_pos h1, if_pos (by omega)]
    · by_cases h2 : p = t
      · subst h2
        have e : p - min p v.size_ = 0 := by omega
        rw [if_pos rfl, if_pos (by omega), if_neg (by omega), e]
        simp
      · have e : t - min p v.size_ = (t - p - 1) + 1 := by omega
        have e2 : p + (t - p - 1) = t - 1 := by omega
        have e3 : t - (v.size_ + 1 - v.size_) = t - 1 := by omega
        rw [if_neg h2, if_pos (by omega), if_neg (by omega), e, List.getElem?_cons_succ,
          List.getElem?_drop, toList_getElem?, e2, e3,
          Resize_getElem? _ _ _ ho hi (t - 1) (by omega), if_pos (by omega), if_pos (by omega)]

theorem Insert_toList [Elem α] (junk : Nat → α) (p : Nat) (value : α) (v : SimpleVector α)
    (ho : v.items_.slots.length = v.capacity_) (hi : v.size_ ≤ v.capacity_)
    (hf : v.capacity_ ≤ PTRDIFF_MAX) (hp : p ≤ v.size_) :
    (Insert junk p (.external value) v).2.toList =
      v.toList.take p ++ value :: v.toList.drop p := by
  simpa only [Insert, Ref.read, size_succ_mod v hi hf] using
    toList_shift_right id junk p value v ho hi hf hp

theorem set_getElem_same (l : List α) (i : Nat) (h : i < l.length) : l.set i l[i] = l := by
  apply List.ext_getElem?
  intro j
  rw [List.getElem?_set]
  split_ifs with h1
  · subst h1
    exact (List.getElem?_eq_getElem h).symm
  · rfl

/-- Whatever the argument of `Insert(pos, const Type&)` refers to, the live
elements after the call are the former ones with one element put in at
`pos`. -/
theorem Insert_toList_any [Elem α] (junk : Nat → α) (p : Nat) (value : Ref α)
    (v : SimpleVector α) (ho : v.items_.slots.length = v.capacity_)
    (hi : v.size_ ≤ v.capacity_) (hf : v.capacity_ ≤ PTRDIFF_MAX) (hp : p ≤ v.size_) :
    ∃ x, (Insert junk p value v).2.toList = v.toList.take p ++ x :: v.toList.drop p := by
  have hgt := Resize_succ_length_gt junk v ho hi hf
  simp only [Insert, size_succ_mod v hi hf]
  split
  · next x _ => exact ⟨x, toList_shift_right id junk p x v ho hi hf hp⟩
  · have hlt : p < (backwardLoop id (v.size_ - p) v.size_ (Resize junk (v.size_ + 1) v).size_
        (Resize junk (v.size_ + 1) v).items_.slots).length := by
      rw [backwardLoop_length]
      omega
    refine ⟨(backwardLoop id (v.size_ - p) v.size_ (Resize junk (v.size_ + 1) v).size_
        (Resize junk (v.size_ + 1) v).items_.slots)[p], ?_⟩
    have h := toList_shift_right id junk p
      (backwardLoop id (v.size_ - p) v.size_ (Resize junk (v.size_ + 1) v).size_
        (Resize junk (v.size_ + 1) v).items_.slots)[p] v ho hi hf hp
    rw [set_getElem_same _ p hlt] at h
    exact h

theorem InsertMove_toList [Elem α] (junk : Nat → α) (p : Nat) (value : α) (v : SimpleVector α)
    (ho : v.items_.slots.length = v.capacity_) (hi : v.size_ ≤ v.capacity_)
    (hf : v.capacity_ ≤ PTRDIFF_MAX) (hp : p ≤ v.size_) :
    (InsertMove junk p value v).2.toList = v.toList.take p ++ value :: v.toList.drop p := by
  simpa only [InsertMove, size_succ_mod v hi hf] using
    toList_shift_right Elem.moved junk p value v ho hi hf hp

/-- With an argument that is not an element of the vector itself,
`Insert(begin + p, v)`, by copy and by move, with `p ≤ n` on a vector with live
elements `e_0..e_{n-1}` gives size `n + 1` and live elements
`e_0..e_{p-1}, v, e_p..e_{n-1}`; the returned position is index `p` and the
element there is `v`. -/
theorem Insert_of_external [Elem α] (junk : Nat → α) (v : SimpleVector α) (p : Nat) (value : α)
    (h : v.WF) (hp : Insert.pre v p) :
    ((Insert junk p (.external value) v).2.size_ = v.size_ + 1 ∧
      (Insert junk p (.external value) v).2.toList =
        v.toList.take p ++ value :: v.toList.drop p ∧
      (Insert junk p (.external value) v).1 = p ∧
      (Insert junk p (.external value) v).2.toList[(Insert junk p (.external value) v).1]? =
        some value) ∧
    ((InsertMove junk p value v).2.size_ = v.size_ + 1 ∧
      (InsertMove junk p value v).2.toList = v.toList.take p ++ value :: v.toList.drop p ∧
      (InsertMove junk p value v).1 = p ∧
      (InsertMove junk p value v).2.toList[(InsertMove junk p value v).1]? = some value) := by
  obtain ⟨ho, hi, hf⟩ := h
  have hp : p ≤ v.size_ := hp
  have hlen := toList_length v ho hi
  have hat : (v.toList.take p ++ value :: v.toList.drop p)[p]? = some value := by
    rw [List.getElem?_append, List.length_take, hlen, if_neg (by omega)]
    have e : p - min p v.size_ = 0 := by omega
    rw [e]
    simp
  have hc := Insert_toList junk p value v ho hi hf hp
  have hm := InsertMove_toList junk p value v ho hi hf hp
  refine ⟨⟨?_, hc, rfl, ?_⟩, ⟨?_, hm, rfl, ?_⟩⟩
  · simp only [Insert, Resize_size, size_succ_mod v hi hf]
  · rw [hc]
    exact hat
  · simp only [InsertMove, Resize_size, size_succ_mod v hi hf]
  · rw [hm]
    exact hat

/-- C4. On `[1, 2, 3]` with capacity 4 (no reallocation), `Insert(begin(), v[1])`
by copy: the argument has the value 2 at the call; the code reads it after the
shift and leaves `[1, 1, 2, 3]` with 1 at the returned position, where an
argument outside the vector with the value 2 gives `[2, 1, 2, 3]`. -/
theorem Insert_aliased_value :
    exampleVector.Inv ∧ Insert.pre exampleVector 0 ∧
    index exampleVector 1 = some 2 ∧
    (Insert exampleJunk 0 (.slot 1) exampleVector).2.toList = [1, 1, 2, 3] ∧
    index (Insert exampleJunk 0 (.slot 1) exampleVector).2
      (Insert exampleJunk 0 (.slot 1) exampleVector).1 = some 1 ∧
    (Insert exampleJunk 0 (.slot 1) exampleVector).2.capacity_ = exampleVector.capacity_ ∧
    (Insert exampleJunk 0 (.external 2) exampleVector).2.toList = [2, 1, 2, 3] := by
  decide

/-! ## Erase -/

theorem size_pred_mod (n : Nat) (h1 : 0 < n) (h2 : n < SIZE_MOD) :
    (n + SIZE_MOD - 1) % SIZE_MOD = n - 1 := by
  simp only [SIZE_MOD] at *
  omega

theorem Erase_toList [Elem α] (p : Nat) (v : SimpleVector α)
    (ho : v.items_.slots.length = v.capacity_) (hi : v.size_ ≤ v.capacity_)
    (hs : v.size_ < SIZE_MOD) (hp : p < v.size_) :
    (Erase p v).2.toList = v.toList.take p ++ v.toList.drop (p + 1) := by
  have hlen := toList_length v ho hi
  apply toList_eq_of
  · simp only [Erase, size_pred_mod v.size_ (by omega) hs, List.length_append, List.length_take,
      List.length_drop, hlen]
    omega
  · intro t ht
    simp only [Erase, size_pred_mod v.size_ (by omega) hs] at ht ⊢
    rw [forwardLoop_getElem? _ _ _ _ _ t (by omega) (by omega), List.getElem?_append,
      List.length_take, hlen, List.getElem?_take, toList_getElem?]
    by_cases h1 : t < p
    · rw [if_neg (by omega), if_neg (by omega), if_pos (by omega), if_pos h1, if_pos (by omega)]
    · have e : t - p + (p + 1) = t + 1 := by omega
      have e2 : p + 1 + (t - min p v.size_) = t + 1 := by omega
      rw [if_pos (by omega), if_neg (by omega), List.getElem?_drop, toList_getElem?, e, e2,
        if_pos (by omega)]

/-- C5. `Erase(begin + p)` with `p < n` on a vector with live elements
`e_0..e_{n-1}` gives size `n - 1`, the same capacity and live elements
`e_0..e_{p-1}, e_{p+1}..e_{n-1}`; the returned position is index `p`, and for
`p < n - 1` the element there is the former successor `e_{p+1}`. -/
theorem Erase_contract [Elem α] (v : SimpleVector α) (p : Nat) (h : v.WF) (hp : p < v.size_) :
    (Erase p v).2.size_ = v.size_ - 1 ∧
    (Erase p v).2.capacity_ = v.capacity_ ∧
    (Erase p v).2.toList = v.toList.take p ++ v.toList.drop (p + 1) ∧
    (Erase p v).1 = p ∧
    (p < v.size_ - 1 →
      ∃ e, v.toList[p + 1]? = some e ∧ (Erase p v).2.toList[(Erase p v).1]? = some e) := by
  obtain ⟨ho, hi, hf⟩ := h
  have hs : v.size_ < SIZE_MOD := by
    simp only [SIZE_MOD, PTRDIFF_MAX] at *
    omega
  have hlen := toList_length v ho hi
  have ht := Erase_toList p v ho hi hs hp
  refine ⟨?_, rfl, ht, rfl, ?_⟩
  · simp only [Erase, size_pred_mod v.size_ (by omega) hs]
  · intro h1
    have hlt : p + 1 < v.toList.length := by omega
    refine ⟨v.toList[p + 1], List.getElem?_eq_getElem hlt, ?_⟩
    have e : (Erase p v).1 = p := rfl
    have e2 : p + 1 + (p - min p v.size_) = p + 1 := by omega
    rw [ht, e, List.getElem?_append, List.length_take, hlen, if_neg (by omega),
      List.getElem?_drop, e2, List.getElem?_eq_getElem hlt]

/-- Witness of C5: `Erase(begin + 1)` on `[1, 2, 3]`. -/
theorem Erase_contract_witness :
    exampleVector.WF ∧
    (Erase 1 exampleVector).2.size_ = exampleVector.size_ - 1 ∧
    (Erase 1 exampleVector).2.toList =
      exampleVector.toList.take 1 ++ exampleVector.toList.drop (1 + 1) :=
  have wf : exampleVector.WF := ⟨by decide, by decide, by decide⟩
  have h := Erase_contract exampleVector 1 wf (by decide)
  ⟨wf, h.1, h.2.2.1⟩

/-! ## Insert followed by Erase -/

theorem stdEqual_self [BEq α] [ReflBEq α] (l : List α) :
    stdEqual (fun x y => x == y) l l = true := by
  induction l with
  | nil => rfl
  | cons x xs ih => simp [stdEqual, ih]

theorem Insert_shape [Elem α] (junk : Nat → α) (p : Nat) (value : Ref α) (v : SimpleVector α)
    (ho : v.items_.slots.length = v.capacity_) (hi : v.size_ ≤ v.capacity_)
    (hf : v.capacity_ ≤ PTRDIFF_MAX) :
    (Insert junk p value v).2.items_.slots.length = (Insert junk p value v).2.capacity_ ∧
    (Insert junk p value v).2.size_ ≤ (Insert junk p value v).2.capacity_ ∧
    (Insert junk p value v).2.size_ = v.size_ + 1 := by
  have hl := Resize_length junk (v.size_ + 1) v ho
  have hgt := Resize_succ_length_gt junk v ho hi hf
  simp only [Insert, size_succ_mod v hi hf]
  split
  · simp only [List.length_set, backwardLoop_length, Resize_size]
    exact ⟨hl, by omega, trivial⟩
  · simp only [backwardLoop_length, Resize_size]
    exact ⟨hl, by omega, trivial⟩

theorem InsertMove_shape [Elem α] (junk : Nat → α) (p : Nat) (value : α) (v : SimpleVector α)
    (ho : v.items_.slots.length = v.capacity_) (hi : v.size_ ≤ v.capacity_)
    (hf : v.capacity_ ≤ PTRDIFF_MAX) :
    (InsertMove junk p value v).2.items_.slots.length = (InsertMove junk p value v).2.capacity_ ∧
    (InsertMove junk p value v).2.size_ ≤ (InsertMove junk p value v).2.capacity_ ∧
    (InsertMove junk p value v).2.size_ = v.size_ + 1 := by
  have hl := Resize_length junk (v.size_ + 1) v ho
  have hgt := Resize_succ_length_gt junk v ho hi hf
  simp only [InsertMove, size_succ_mod v hi hf, List.length_set, backwardLoop_length, Resize_size]
  exact ⟨hl, by omega, trivial⟩

/-- Erasing at `p` a vector whose live elements are `l` with `value` put in at
`p` gives back `l`. -/
theorem Erase_undoes [Elem α] (p : Nat) (value : α) (l : List α) (w : SimpleVector α)
    (ho : w.items_.slots.length = w.capacity_) (hi : w.size_ ≤ w.capacity_)
    (hs : w.size_ < SIZE_MOD) (hp : p ≤ l.length)
    (hw : w.toList = l.take p ++ value :: l.drop p) : (Erase p w).2.toList = l := by
  have hlen : w.size_ = l.length + 1 := by
    rw [← toList_length w ho hi, hw]
    simp only [List.length_append, List.length_take, List.length_cons, List.length_drop]
    omega
  have e : (l.take p).length = p := by
    rw [List.length_take]
    omega
  have hd : List.drop (p + 1) (l.take p ++ value :: l.drop p) = l.drop p := by
    have h1 := @List.drop_append _ (l.take p) (value :: l.drop p) 1
    rw [e] at h1
    rw [h1]
    rfl
  rw [Erase_toList p w ho hi hs (by omega), hw, List.take_left' e, hd, List.take_append_drop]

/-- C6. Erasing at the position returned by `Insert(begin + p, v)`, `p ≤ size`,
gives a vector that `operator==` finds equal to the original: it has the
original live elements. For the overload by copy the argument may be any
reference, an element of the vector itself included. -/
theorem Erase_Insert_inverse [Elem α] [BEq α] [ReflBEq α] (junk : Nat → α) (a : SimpleVector α)
    (p : Nat) (ref : Ref α) (value : α) (h : a.WF) (hp : Insert.pre a p) :
    (eq (Erase (Insert junk p ref a).1 (Insert junk p ref a).2).2 a = true ∧
      (Erase (Insert junk p ref a).1 (Insert junk p ref a).2).2.toList = a.toList) ∧
    (eq (Erase (InsertMove junk p value a).1 (InsertMove junk p value a).2).2 a = true ∧
      (Erase (InsertMove junk p value a).1 (InsertMove junk p value a).2).2.toList = a.toList) := by
  obtain ⟨ho, hi, hf⟩ := h
  have hp : p ≤ a.size_ := hp
  have hlen := toList_length a ho hi
  have hbig : a.size_ + 1 < SIZE_MOD := by
    simp only [SIZE_MOD, PTRDIFF_MAX] at *
    omega
  obtain ⟨c1, c2, c3⟩ := Insert_shape junk p ref a ho hi hf
  obtain ⟨m1, m2, m3⟩ := InsertMove_shape junk p value a ho hi hf
  have hc : (Erase (Insert junk p ref a).1 (Insert junk p ref a).2).2.toList = a.toList := by
    obtain ⟨x, hx⟩ := Insert_toList_any junk p ref a ho hi hf hp
    exact Erase_undoes p x a.toList _ c1 c2 (by omega) (by omega) hx
  have hm : (Erase (InsertMove junk p value a).1 (InsertMove junk p value a).2).2.toList =
      a.toList := by
    exact Erase_undoes p value a.toList _ m1 m2 (by omega) (by omega)
      (InsertMove_toList junk p value a ho hi hf hp)
  refine ⟨⟨?_, hc⟩, ⟨?_, hm⟩⟩
  · unfold eq
    rw [hc]
    exact stdEqual_self _
  · unfold eq
    rw [hm]
    exact stdEqual_self _

/-- Witness of C6: `Insert(begin + 1, 9)` then `Erase` on `[1, 2, 3]`. -/
theorem Erase_Insert_inverse_witness :
    exampleVector.WF ∧ Insert.pre exampleVector 1 ∧
    eq (Erase (Insert exampleJunk 1 (.external 9) exampleVector).1
      (Insert exampleJunk 1 (.external 9) exampleVector).2).2 exampleVector = true ∧
    eq (Erase (InsertMove exampleJunk 1 9 exampleVector).1
      (InsertMove exampleJunk 1 9 exampleVector).2).2 exampleVector = true :=
  have wf : exampleVector.WF := ⟨by decide, by decide, by decide⟩
  have hp : Insert.pre exampleVector 1 := by decide
  have h := Erase_Insert_inverse exampleJunk exampleVector 1 (.external 9) 9 wf hp
  ⟨wf, hp, h.1.1, h.2.1⟩

/-! ## At -/

/-- C7. With `i < size`, `At(i)` returns the element that `operator[](i)`
returns; with `i ≥ size` it throws `std::out_of_range`; in both cases the
vector is as before; `At` throws exactly when `i ≥ size`. -/
theorem At_contract (v : SimpleVector α) (i : Nat) :
    (i < v.size_ → (At v i).1 = .ok (index v i) ∧ (At v i).2 = v) ∧
    (i ≥ v.size_ →
      (At v i).1 = .error (.out_of_range "Index is out of range") ∧ (At v i).2 = v) ∧
    ((∃ e, (At v i).1 = .error e) ↔ i ≥ v.size_) := by
  unfold At index
  by_cases h : i ≥ v.size_
  · simp [h]
  · simp [h]

/-! ## Reserve -/

theorem Reserve_toList [Elem α] (junk : Nat → α) (r : Nat) (v : SimpleVector α)
    (ho : v.items_.slots.length = v.capacity_) (hi : v.size_ ≤ v.capacity_) :
    (Reserve junk r v).toList = v.toList := by
  unfold Reserve
  split_ifs with h
  · apply toList_eq_of
    · exact toList_length v ho hi
    · intro i hlt
      simp only [ArrayPtr.swap, stdMove] at hlt ⊢
      rw [transferLoop_getElem?_snd _ _ _ _ _ _ _ (by omega), ofSize_length, if_pos (by omega),
        toList_getElem?, if_pos hlt]
      simp
  · rfl

theorem Reserve_length [Elem α] (junk : Nat → α) (r : Nat) (v : SimpleVector α)
    (ho : v.items_.slots.length = v.capacity_) :
    (Reserve junk r v).items_.slots.length = (Reserve junk r v).capacity_ := by
  unfold Reserve
  split_ifs with h
  · simp only [ArrayPtr.swap, stdMove, transferLoop_length_snd, ofSize_length]
  · exact ho

/-- The slots of the buffer after `Reserve(r)`, `r > capacity`: the former
elements in `[0, size)`, and the value that `SimpleVector(size_t)` writes
(`std::fill(begin(), end(), 0)`) in `[size, r)`. -/
theorem Reserve_getElem? [Elem α] (junk : Nat → α) (r : Nat) (v : SimpleVector α)
    (ho : v.items_.slots.length = v.capacity_) (hi : v.size_ ≤ v.capacity_)
    (hr : r > v.capacity_) (i : Nat) (h : i < r) :
    (Reserve junk r v).items_.slots[i]? =
      if i < v.size_ then v.items_.slots[i]? else some Elem.zero := by
  simp only [Reserve, if_pos hr, ArrayPtr.swap, stdMove]
  rw [transferLoop_getElem?_snd _ _ _ _ _ _ _ (by omega), ofSize_length]
  by_cases h1 : i < v.size_
  · rw [if_pos (by omega), if_pos h1]
    simp
  · rw [if_neg (by omega), if_neg h1]
    simp only [ofSize, fillLoop_getElem?, create_length]
    rw [if_pos (by omega)]

/-- C8. `Reserve(r)` on a vector of size `n` and capacity `c`: with `r > c` the
capacity becomes exactly `r`, the buffer of the vector has exactly `r` slots
(the former elements in `[0, n)`, then the fill value of the new buffer), and
the size and the live elements stay; with `r ≤ c` nothing changes. -/
theorem Reserve_contract [Elem α] (junk : Nat → α) (v : SimpleVector α) (r : Nat) (h : v.WF) :
    (r > v.capacity_ →
      (Reserve junk r v).capacity_ = r ∧
      (Reserve junk r v).size_ = v.size_ ∧
      (Reserve junk r v).toList = v.toList ∧
      (Reserve junk r v).items_.slots.length = r ∧
      (∀ i, i < v.size_ → (Reserve junk r v).items_.slots[i]? = v.items_.slots[i]?) ∧
      (∀ i, v.size_ ≤ i → i < r → (Reserve junk r v).items_.slots[i]? = some Elem.zero)) ∧
    (r ≤ v.capacity_ → Reserve junk r v = v) ∧
    (Reserve junk r v).items_.slots.length = (Reserve junk r v).capacity_ ∧
    (Reserve junk r v).size_ ≤ (Reserve junk r v).capacity_ := by
  obtain ⟨ho, hi, _⟩ := h
  have ht := Reserve_toList junk r v ho hi
  have hl := Reserve_length junk r v ho
  refine ⟨?_, ?_, hl, ?_⟩
  · intro hr
    have hc : (Reserve junk r v).capacity_ = r := by simp only [Reserve, if_pos hr]
    refine ⟨hc, ?_, ht, ?_, ?_, ?_⟩
    · simp only [Reserve, if_pos hr]
    · rw [hl, hc]
    · intro i hlt
      rw [Reserve_getElem? junk r v ho hi hr i (by omega), if_pos hlt]
    · intro i h1 h2
      rw [Reserve_getElem? junk r v ho hi hr i h2, if_neg (by omega)]
  · intro hr
    simp only [Reserve, if_neg (by omega : ¬ r > v.capacity_)]
  · unfold Reserve
    split_ifs with hr
    · show v.size_ ≤ r
      omega
    · exact hi

/-- Witness of C8: `Reserve(10)` on `[1, 2, 3]` of capacity 4. -/
theorem Reserve_contract_witness :
    exampleVector.WF ∧
    (Reserve exampleJunk 10 exampleVector).capacity_ = 10 ∧
    (Reserve exampleJunk 10 exampleVector).size_ = exampleVector.size_ ∧
    (Reserve exampleJunk 10 exampleVector).toList = exampleVector.toList ∧
    (Reserve exampleJunk 10 exampleVector).items_.slots.length = 10 :=
  have wf : exampleVector.WF := ⟨by decide, by decide, by decide⟩
  have h := Reserve_contract exampleJunk exampleVector 10 wf
  ⟨wf, (h.1 (by decide)).1, (h.1 (by decide)).2.1, (h.1 (by decide)).2.2.1,
    (h.1 (by decide)).2.2.2.1⟩

/-! ## Move assignment and move construction -/

/-- C9. After `b = std::move(a)` with `a = [1, 2, 3]` and an empty `b`, `b`
holds `[1, 2, 3]` and has size 3, and `a.size()` is still 3, not 0; the move
constructor on the same `a` leaves it with size 0. -/
theorem moveAssign_source_not_empty :
    (moveAssign exampleJunk empty exampleVector).1.toList = [1, 2, 3] ∧
    (moveAssign exampleJunk empty exampleVector).1.size_ = 3 ∧
    (moveAssign exampleJunk empty exampleVector).2.size_ = 3 ∧
    (moveAssign exampleJunk empty exampleVector).2.size_ ≠ 0 ∧
    (moveConstruct exampleVector).2.size_ = 0 := by
  decide

/-- What the move assignment `b = std::move(a)` of two different vectors does:
`b` receives the former live elements of `a` in the same order and the former
size of `a`; `size_` and `capacity_` of `a` are not written. -/
theorem moveAssign_effect [Elem α] (junk : Nat → α) (a b : SimpleVector α) (ha : a.WF)
    (hb : b.WF) :
    (moveAssign junk b a).1.toList = a.toList ∧
    (moveAssign junk b a).1.size_ = a.size_ ∧
    (moveAssign junk b a).2.size_ = a.size_ ∧
    (moveAssign junk b a).2.capacity_ = a.capacity_ := by
  obtain ⟨hao, hai, _⟩ := ha
  obtain ⟨hbo, hbi, hbf⟩ := hb
  unfold moveAssign
  by_cases hs : ArrayPtr.sameGet b.items_ a.items_ = true
  · simp only [hs, Bool.not_true, Bool.false_eq_true, if_false]
    simp only [ArrayPtr.sameGet, Bool.and_eq_true, List.isEmpty_iff] at hs
    have ea : a.size_ = 0 := by
      have h1 : a.items_.slots.length = 0 := by rw [hs.2]; rfl
      omega
    have eb : b.size_ = 0 := by
      have h1 : b.items_.slots.length = 0 := by rw [hs.1]; rfl
      omega
    refine ⟨?_, by omega, trivial, trivial⟩
    simp [toList, ea, eb]
  · simp only [hs, Bool.not_false, if_true]
    refine ⟨?_, Resize_size _ _ _, trivial, trivial⟩
    apply toList_eq_of
    · simp only [Resize_size]
      exact toList_length a hao hai
    · intro i hlt
      simp only [Resize_size, stdMove] at hlt ⊢
      have hl : a.size_ ≤ (Resize junk a.size_ b).items_.slots.length := by
        rw [Resize_length _ _ _ hbo, Resize_capacity _ _ _ hbi hbf]
        split_ifs <;> omega
      rw [transferLoop_getElem?_snd _ _ _ _ _ _ _ (by omega), if_pos (by omega),
        toList_getElem?, if_pos hlt]
      simp

/-- The move assignment `b = std::move(a)` with `a = [1, 2, 3]` and an
empty `b`. -/
theorem moveAssign_effect_example :
    exampleVector.WF ∧ (empty : SimpleVector Int).WF ∧
    (moveAssign exampleJunk empty exampleVector).1.toList = exampleVector.toList ∧
    (moveAssign exampleJunk empty exampleVector).2.size_ = exampleVector.size_ :=
  have wa : exampleVector.WF := ⟨by decide, by decide, by decide⟩
  have wb : (empty : SimpleVector Int).WF := ⟨by decide, by decide, by decide⟩
  have h := moveAssign_effect exampleJunk exampleVector empty wa wb
  ⟨wa, wb, h.1, h.2.2.1⟩

/-- C10. Move construction of `b` from `a` gives `b` the size, the capacity
and the live elements of `a`, and leaves `a` with size 0 and capacity 0. -/
theorem moveConstruct_contract (a : SimpleVector α) :
    (moveConstruct a).1.size_ = a.size_ ∧
    (moveConstruct a).1.capacity_ = a.capacity_ ∧
    (moveConstruct a).1.toList = a.toList ∧
    (moveConstruct a).2.size_ = 0 ∧
    (moveConstruct a).2.capacity_ = 0 ∧
    (moveConstruct a).2.toList = [] :=
  ⟨rfl, rfl, rfl, rfl, rfl, rfl⟩

/-! ## Copy construction and copy assignment -/

theorem copy_toList [Elem α] (junk : Nat → α) (a : SimpleVector α)
    (ho : a.items_.slots.length = a.capacity_) (hi : a.size_ ≤ a.capacity_) :
    (copy junk a).toList = a.toList := by
  apply toList_eq_of
  · rw [copy_size]
    exact toList_length a ho hi
  · intro i hlt
    rw [copy_size] at hlt
    rw [copy_getElem? junk a ho hi i hlt, toList_getElem?, if_pos hlt]

theorem copyAssign_eq_copy [Elem α] (junk : Nat → α) (v a : SimpleVector α) :
    copyAssign junk v a = copy junk a := rfl

/-- The value that copy construction and copy assignment `b = a` compute:
`b.size = a.size`, `b.capacity ≥ b.size` and `b[i] = a[i]` for every
`i < size`, so `a == b` holds, and `b` satisfies the representation
invariant. -/
theorem copy_value [Elem α] [BEq α] [ReflBEq α] (junk : Nat → α) (a v : SimpleVector α)
    (h : a.WF) :
    ((copy junk a).size_ = a.size_ ∧
      (copy junk a).size_ ≤ (copy junk a).capacity_ ∧
      (∀ i, i < a.size_ → index (copy junk a) i = index a i) ∧
      (copy junk a).toList = a.toList ∧
      eq a (copy junk a) = true ∧
      (copy junk a).WF) ∧
    ((copyAssign junk v a).size_ = a.size_ ∧
      (copyAssign junk v a).size_ ≤ (copyAssign junk v a).capacity_ ∧
      (∀ i, i < a.size_ → index (copyAssign junk v a) i = index a i) ∧
      (copyAssign junk v a).toList = a.toList ∧
      eq a (copyAssign junk v a) = true ∧
      (copyAssign junk v a).WF) := by
  obtain ⟨ho, hi, hf⟩ := h
  have key : (copy junk a).size_ = a.size_ ∧
      (copy junk a).size_ ≤ (copy junk a).capacity_ ∧
      (∀ i, i < a.size_ → index (copy junk a) i = index a i) ∧
      (copy junk a).toList = a.toList ∧
      eq a (copy junk a) = true ∧
      (copy junk a).WF := by
    refine ⟨rfl, ?_, ?_, copy_toList junk a ho hi, ?_, ?_⟩
    · rw [copy_size, copy_capacity]
    · intro i hlt
      exact copy_getElem? junk a ho hi i hlt
    · unfold eq
      rw [copy_toList junk a ho hi]
      exact stdEqual_self _
    · refine ⟨?_, ?_, ?_⟩
      · rw [copy_length, copy_capacity]
      · rw [copy_size, copy_capacity]
      · rw [copy_capacity]
        omega
  rw [copyAssign_eq_copy]
  exact ⟨key, key⟩

/-! ## The invariant `size ≤ capacity` -/

theorem Resize_Inv [Elem α] (junk : Nat → α) (m : Nat) (v : SimpleVector α) (h : v.Inv) :
    (Resize junk m v).Inv := by
  unfold Inv at h ⊢
  unfold Resize
  split_ifs
  · show m ≤ v.capacity_
    omega
  · show m ≤ v.capacity_
    omega
  · show m ≤ max m (v.capacity_ * 2 % SIZE_MOD)
    omega
  · exact h

theorem copy_Inv [Elem α] (junk : Nat → α) (a : SimpleVector α) : (copy junk a).Inv := by
  unfold Inv
  rw [copy_size, copy_capacity]

theorem pred_mod_le (n : Nat) (h : 0 < n) : (n + SIZE_MOD - 1) % SIZE_MOD ≤ n - 1 := by
  simp only [SIZE_MOD]
  omega

/-- C12. The predicate `size ≤ capacity` holds after every constructor and is
kept by every mutating operation called within its precondition. -/
theorem Inv_invariant [Elem α] (junk : Nat → α) :
    (empty : SimpleVector α).Inv ∧
    (∀ size, (ofSize junk size).Inv) ∧
    (∀ size value, (ofSizeValue junk size value).Inv) ∧
    (∀ init, (ofInit junk init).Inv) ∧
    (∀ capacity, (ofReserve junk capacity).Inv) ∧
    (∀ other : SimpleVector α, (copy junk other).Inv) ∧
    (∀ other : SimpleVector α, other.Inv →
      (moveConstruct other).1.Inv ∧ (moveConstruct other).2.Inv) ∧
    (∀ v : SimpleVector α, v.Inv → (Clear v).Inv) ∧
    (∀ (v : SimpleVector α) new_size, v.Inv → (Resize junk new_size v).Inv) ∧
    (∀ (v : SimpleVector α) new_capacity, v.Inv → (Reserve junk new_capacity v).Inv) ∧
    (∀ (v : SimpleVector α) item, v.Inv → (PushBack junk item v).Inv) ∧
    (∀ (v : SimpleVector α) item, v.Inv → (PushBackMove junk item v).Inv) ∧
    (∀ v : SimpleVector α, v.Inv → (PopBack v).Inv) ∧
    (∀ (v : SimpleVector α) pos (value : Ref α), v.Inv → Insert.pre v pos →
      (Insert junk pos value v).2.Inv) ∧
    (∀ (v : SimpleVector α) pos value, v.Inv → Insert.pre v pos →
      (InsertMove junk pos value v).2.Inv) ∧
    (∀ (v : SimpleVector α) pos, v.Inv → pos < v.size_ → (Erase pos v).2.Inv) ∧
    (∀ v other : SimpleVector α, v.Inv → other.Inv →
      (swap v other).1.Inv ∧ (swap v other).2.Inv) ∧
    (∀ v rhs : SimpleVector α, v.Inv → rhs.Inv → (copyAssign junk v rhs).Inv) ∧
    (∀ v rhs : SimpleVector α, v.Inv → rhs.Inv →
      (moveAssign junk v rhs).1.Inv ∧ (moveAssign junk v rhs).2.Inv) := by
  refine ⟨?_, ?_, ?_, ?_, ?_, ?_, ?_, ?_, ?_, ?_, ?_, ?_, ?_, ?_, ?_, ?_, ?_, ?_, ?_⟩
  · exact Nat.le_refl 0
  · intro size
    exact Nat.le_refl size
  · intro size value
    exact Nat.le_refl size
  · intro init
    exact Nat.le_refl init.length
  · intro capacity
    exact Nat.zero_le capacity
  · exact copy_Inv junk
  · intro other h
    exact ⟨h, Nat.le_refl 0⟩
  · intro v _
    exact Nat.zero_le v.capacity_
  · intro v m h
    exact Resize_Inv junk m v h
  · intro v r h
    unfold Inv at h ⊢
    unfold Reserve
    split_ifs with h1
    · show v.size_ ≤ r
      omega
    · exact h
  · intro v item _
    exact Resize_Inv junk _ _ (copy_Inv junk v)
  · intro v item h
    exact Resize_Inv junk _ _ h
  · intro v h
    unfold Inv at h ⊢
    unfold PopBack
    split_ifs with h1
    · have := pred_mod_le v.size_ h1
      show (v.size_ + SIZE_MOD - 1) % SIZE_MOD ≤ v.capacity_
      omega
    · exact h
  · intro v pos value h _
    exact Resize_Inv junk _ _ h
  · intro v pos value h _
    exact Resize_Inv junk _ _ h
  · intro v pos h hp
    unfold Inv at h ⊢
    have := pred_mod_le v.size_ (by omega)
    show (v.size_ + SIZE_MOD - 1) % SIZE_MOD ≤ v.capacity_
    omega
  · intro v other h1 h2
    exact ⟨h2, h1⟩
  · intro v rhs _ _
    exact copy_Inv junk rhs
  · intro v rhs h1 h2
    unfold moveAssign
    split_ifs
    · exact ⟨Resize_Inv junk _ _ h1, h2⟩
    · exact ⟨h1, h2⟩

/-! ## Growth under a sequence of push_back calls -/

theorem runPushCalls_byCopy_count [Elem α] (junk : Nat → α) (item : α) (k : Nat) :
    ∀ v : SimpleVector α,
      (runPushCalls junk (List.replicate k (PushCall.byCopy item)) v).1 = k := by
  induction k with
  | zero => intro v; rfl
  | succ n ih =>
    intro v
    simp only [List.replicate_succ, runPushCalls, PushCall.adopts, PushBack.adopts, if_true, ih]
    omega

/-- C13. The growth law fails for the copy overload: every `PushBack(const
Type&)` adopts a newly allocated buffer, so for every constant `C` there is a
`k ≥ 1` for which `k` calls from the empty vector replace the buffer more than
`⌈log2 k⌉ + C` times. -/
theorem growth_law_fails_byCopy [Elem α] (junk : Nat → α) (item : α) (C : Nat) :
    ∃ k, 1 ≤ k ∧
      Nat.clog 2 k + C <
        (runPushCalls junk (List.replicate k (PushCall.byCopy item)) empty).1 := by
  refine ⟨2 ^ (C + 1), Nat.one_le_two_pow, ?_⟩
  rw [runPushCalls_byCopy_count, Nat.clog_pow 2 (C + 1) (by omega)]
  have h := Nat.lt_two_pow C
  rw [Nat.pow_succ]
  omega

/-! ## Capacity after Insert -/

/-- C14. `Insert` on a full vector (`size = capacity = c`) makes the capacity
`2 * c` when `c ≥ 1` and `1` when `c = 0`; with `size < capacity` it leaves
the capacity as it is; in every case the capacity is the one `Resize(size + 1)`
gives. Both overloads, and for the overload by copy any reference as
argument. -/
theorem Insert_capacity [Elem α] (junk : Nat → α) (v : SimpleVector α) (p : Nat) (ref : Ref α)
    (value : α) (h : v.WF) (_hp : Insert.pre v p) :
    ((Insert junk p ref v).2.capacity_ = (Resize junk (v.size_ + 1) v).capacity_ ∧
      (v.size_ = v.capacity_ → 1 ≤ v.capacity_ →
        (Insert junk p ref v).2.capacity_ = 2 * v.capacity_) ∧
      (v.size_ = v.capacity_ → v.capacity_ = 0 → (Insert junk p ref v).2.capacity_ = 1) ∧
      (v.size_ < v.capacity_ → (Insert junk p ref v).2.capacity_ = v.capacity_)) ∧
    ((InsertMove junk p value v).2.capacity_ = (Resize junk (v.size_ + 1) v).capacity_ ∧
      (v.size_ = v.capacity_ → 1 ≤ v.capacity_ →
        (InsertMove junk p value v).2.capacity_ = 2 * v.capacity_) ∧
      (v.size_ = v.capacity_ → v.capacity_ = 0 →
        (InsertMove junk p value v).2.capacity_ = 1) ∧
      (v.size_ < v.capacity_ → (InsertMove junk p value v).2.capacity_ = v.capacity_)) := by
  obtain ⟨_, hi, hf⟩ := h
  have hc := Resize_capacity junk (v.size_ + 1) v hi hf
  have e1 : (Insert junk p ref v).2.capacity_ = (Resize junk (v.size_ + 1) v).capacity_ := by
    simp only [Insert, size_succ_mod v hi hf]
  have e2 : (InsertMove junk p value v).2.capacity_ =
      (Resize junk (v.size_ + 1) v).capacity_ := by
    simp only [InsertMove, size_succ_mod v hi hf]
  rw [e1, e2, hc]
  refine ⟨⟨rfl, ?_, ?_, ?_⟩, ⟨rfl, ?_, ?_, ?_⟩⟩
  all_goals
    intros
    split_ifs <;> omega

/-- Witness of C14: `Insert(begin + 1, 9)` on the full vector `[1, 2, 3]`. -/
theorem Insert_capacity_witness :
    fullVector.WF ∧ Insert.pre fullVector 1 ∧
    (Insert exampleJunk 1 (.external 9) fullVector).2.capacity_ = 2 * fullVector.capacity_ ∧
    (InsertMove exampleJunk 1 9 fullVector).2.capacity_ = 2 * fullVector.capacity_ :=
  have wf : fullVector.WF := ⟨by decide, by decide, by decide⟩
  have hp : Insert.pre fullVector 1 := by decide
  have h := Insert_capacity exampleJunk fullVector 1 (.external 9) 9 wf hp
  ⟨wf, hp, h.1.2.1 (by decide) (by decide), h.2.2.1 (by decide) (by decide)⟩

/-! ## Resize twice -/

theorem Resize_of_le [Elem α] (junk : Nat → α) (k : Nat) (w : SimpleVector α)
    (h : k ≤ w.size_) : Resize junk k w = { w with size_ := k } := by
  unfold Resize
  rw [if_pos h]

/-- C17. `Resize(n)` followed by `Resize(m)` with `m ≤ n` ends with size `m`,
the capacity that held right after `Resize(n)` and the first `m` elements that
held after `Resize(n)`; `Resize(n)` right after `Resize(n)` changes nothing. -/
theorem Resize_round_trip [Elem α] (junk : Nat → α) (v : SimpleVector α) (n m : Nat)
    (h : m ≤ n) :
    (Resize junk m (Resize junk n v)).size_ = m ∧
    (Resize junk m (Resize junk n v)).capacity_ = (Resize junk n v).capacity_ ∧
    (Resize junk m (Resize junk n v)).items_ = (Resize junk n v).items_ ∧
    (Resize junk m (Resize junk n v)).toList = (Resize junk n v).toList.take m ∧
    Resize junk n (Resize junk n v) = Resize junk n v := by
  have hs := Resize_size junk n v
  have e : ∀ k, k ≤ n →
      Resize junk k (Resize junk n v) = { Resize junk n v with size_ := k } := by
    intro k hk
    exact Resize_of_le junk k _ (by omega)
  refine ⟨Resize_size _ _ _, ?_, ?_, ?_, ?_⟩
  · rw [e m h]
  · rw [e m h]
  · rw [e m h]
    simp only [toList, hs, List.take_take]
    rw [Nat.min_eq_left h]
  · rw [e n (Nat.le_refl n)]
    generalize Resize junk n v = w at hs
    cases w
    simp only at hs
    simp only [hs]

/-- Witness of C17: `Resize(5)` then `Resize(2)` on `[1, 2, 3]`. -/
theorem Resize_round_trip_witness :
    (Resize exampleJunk 2 (Resize exampleJunk 5 exampleVector)).size_ = 2 ∧
    (Resize exampleJunk 2 (Resize exampleJunk 5 exampleVector)).capacity_ =
      (Resize exampleJunk 5 exampleVector).capacity_ :=
  have h := Resize_round_trip exampleJunk exampleVector 5 2 (by decide)
  ⟨h.1, h.2.1⟩

/-! ## The scenario of the spec -/

/-- C18. From the empty vector, three `push_back` of literals give size 3,
capacity at least 3 and `[1, 2, 3]`; `Insert(begin + 1, 9)` gives
`[1, 9, 2, 3]` and a position holding 9; `Erase(begin + 1)` gives `[1, 2, 3]`
and a position holding 2; `Reserve(10)` gives capacity 10 with the size and
the elements as before; `Resize(1)` gives `[1]`, size 1, capacity 10. -/
theorem scenario_of_the_spec :
    (scenarioPushed.size_ = 3 ∧ 3 ≤ scenarioPushed.capacity_ ∧
      scenarioPushed.toList = [1, 2, 3]) ∧
    (scenarioInserted.2.toList = [1, 9, 2, 3] ∧
      index scenarioInserted.2 scenarioInserted.1 = some 9 ∧
      (Insert exampleJunk 1 (.external 9) scenarioPushed).2.toList = [1, 9, 2, 3] ∧
      index (Insert exampleJunk 1 (.external 9) scenarioPushed).2
        (Insert exampleJunk 1 (.external 9) scenarioPushed).1 = some 9) ∧
    (scenarioErased.2.toList = [1, 2, 3] ∧
      index scenarioErased.2 scenarioErased.1 = some 2) ∧
    (scenarioReserved.capacity_ = 10 ∧ scenarioReserved.size_ = 3 ∧
      scenarioReserved.toList = [1, 2, 3]) ∧
    (scenarioResized.toList = [1] ∧ scenarioResized.size_ = 1 ∧
      scenarioResized.capacity_ = 10) := by
  decide

/-! ## Erase at the end of the empty vector -/

/-- C20. The empty vector satisfies `size ≤ capacity`, position `begin()`
(equal to `end()`) passes the assertion of `Erase`, and `Erase` leaves
`size_ = 2 ^ 64 - 1`, above the capacity 0. -/
theorem Erase_empty_wraps :
    (empty : SimpleVector Int).Inv ∧
    Erase.pre (empty : SimpleVector Int) 0 ∧
    (Erase 0 (empty : SimpleVector Int)).2.size_ = 18446744073709551615 ∧
    (Erase 0 (empty : SimpleVector Int)).2.capacity_ = 0 ∧
    ¬ (Erase 0 (empty : SimpleVector Int)).2.Inv := by
  decide

/-! ## Comparison operators -/

theorem stdEqual_iff (p : α → α → Bool) :
    ∀ l1 l2 : List α, stdEqual p l1 l2 = true ↔
      l1.length = l2.length ∧
      ∀ i, i < l1.length → ∃ x y, l1[i]? = some x ∧ l2[i]? = some y ∧ p x y = true := by
  intro l1
  induction l1 with
  | nil =>
    intro l2
    cases l2 with
    | nil => simp [stdEqual]
    | cons y ys => simp [stdEqual]
  | cons x xs ih =>
    intro l2
    cases l2 with
    | nil => simp [stdEqual]
    | cons y ys =>
      simp only [stdEqual, Bool.and_eq_true, ih ys, List.length_cons]
      constructor
      · rintro ⟨hxy, hlen, hall⟩
        refine ⟨by omega, ?_⟩
        intro i hi
        cases i with
        | zero => exact ⟨x, y, List.getElem?_cons_zero, List.getElem?_cons_zero, hxy⟩
        | succ k =>
          simp only [List.getElem?_cons_succ]
          exact hall k (by omega)
      · rintro ⟨hlen, hall⟩
        refine ⟨?_, by omega, ?_⟩
        · obtain ⟨a, b, ha, hb, hab⟩ := hall 0 (by omega)
          simp only [List.getElem?_cons_zero, Option.some.injEq] at ha hb
          rw [ha, hb]
          exact hab
        · intro i hi
          have h := hall (i + 1) (by omega)
          simpa only [List.getElem?_cons_succ] using h

/-- C15. `a == b` is true exactly when `a.size = b.size` and `a[i] == b[i]`
for every `i < size`; the capacity and the unused slots play no part (a vector
with the same live elements gives the same answer); `a != b` is the
negation. -/
theorem eq_contract [BEq α] (a b : SimpleVector α) (ha : a.WF) (hb : b.WF) :
    (eq a b = true ↔
      a.size_ = b.size_ ∧
      ∀ i, i < a.size_ → ∃ x y, index a i = some x ∧ index b i = some y ∧ (x == y) = true) ∧
    (∀ a2 b2 : SimpleVector α, a2.toList = a.toList → b2.toList = b.toList →
      eq a2 b2 = eq a b) ∧
    ne a b = !(eq a b) := by
  obtain ⟨hao, hai, _⟩ := ha
  obtain ⟨hbo, hbi, _⟩ := hb
  have hla := toList_length a hao hai
  have hlb := toList_length b hbo hbi
  refine ⟨?_, ?_, rfl⟩
  · unfold eq index
    rw [stdEqual_iff, hla, hlb]
    constructor
    · rintro ⟨hs, hall⟩
      refine ⟨hs, ?_⟩
      intro i hi
      have h := hall i hi
      rw [toList_getElem?, toList_getElem?, if_pos hi, if_pos (by omega)] at h
      exact h
    · rintro ⟨hs, hall⟩
      refine ⟨hs, ?_⟩
      intro i hi
      rw [toList_getElem?, toList_getElem?, if_pos hi, if_pos (by omega)]
      exact hall i hi
  · intro a2 b2 h1 h2
    unfold eq
    rw [h1, h2]

/-- Witness of C15: `[1, 2, 3]` with capacity 4 against `[1, 2, 3]` with
capacity 3. -/
theorem eq_contract_witness :
    exampleVector.WF ∧ fullVector.WF ∧
    (eq exampleVector fullVector = true ↔
      exampleVector.size_ = fullVector.size_ ∧
      ∀ i, i < exampleVector.size_ →
        ∃ x y, index exampleVector i = some x ∧ index fullVector i = some y ∧
          (x == y) = true) :=
  have wa : exampleVector.WF := ⟨by decide, by decide, by decide⟩
  have wb : fullVector.WF := ⟨by decide, by decide, by decide⟩
  ⟨wa, wb, (eq_contract exampleVector fullVector wa wb).1⟩

theorem stdLexicographicalCompare_iff_of_length_eq [LinearOrder α] :
    ∀ l1 l2 : List α, l1.length = l2.length →
      (stdLexicographicalCompare (fun x y => decide (x < y)) l1 l2 = true ↔
        ∃ i, i < l1.length ∧ (∀ j, j < i → l1[j]? = l2[j]?) ∧
          ∃ a b, l1[i]? = some a ∧ l2[i]? = some b ∧ a < b) := by
  intro l1
  induction l1 with
  | nil =>
    intro l2 hlen
    cases l2 with
    | nil => simp [stdLexicographicalCompare]
    | cons y ys => simp at hlen
  | cons x xs ih =>
    intro l2 hlen
    cases l2 with
    | nil => simp at hlen
    | cons y ys =>
      simp only [List.length_cons, Nat.add_right_cancel_iff] at hlen
      rcases lt_trichotomy x y with hxy | hxy | hxy
      · simp only [stdLexicographicalCompare, hxy, decide_True, if_true, true_iff]
        refine ⟨0, by simp, ?_, x, y, List.getElem?_cons_zero, List.getElem?_cons_zero, hxy⟩
        intro j hj
        omega
      · subst hxy
        simp only [stdLexicographicalCompare, lt_irrefl, decide_False, Bool.false_eq_true,
          if_false, ih ys hlen, List.length_cons]
        constructor
        · rintro ⟨i, hi, hpre, a, b, ha, hb, hab⟩
          refine ⟨i + 1, by omega, ?_, a, b, ?_, ?_, hab⟩
          · intro j hj
            cases j with
            | zero => simp
            | succ k =>
              simp only [List.getElem?_cons_succ]
              exact hpre k (by omega)
          · simpa only [List.getElem?_cons_succ] using ha
          · simpa only [List.getElem?_cons_succ] using hb
        · rintro ⟨i, hi, hpre, a, b, ha, hb, hab⟩
          cases i with
          | zero =>
            simp only [List.getElem?_cons_zero, Option.some.injEq] at ha hb
            rw [← ha, ← hb] at hab
            exact absurd hab (lt_irrefl x)
          | succ k =>
            simp only [List.getElem?_cons_succ] at ha hb
            refine ⟨k, by omega, ?_, a, b, ha, hb, hab⟩
            intro j hj
            have h := hpre (j + 1) (by omega)
            simpa only [List.getElem?_cons_succ] using h
      · have hnot : ¬ x < y := not_lt.mpr (le_of_lt hxy)
        simp only [stdLexicographicalCompare, hnot, hxy, decide_False, decide_True,
          Bool.false_eq_true, if_false, if_true, false_iff]
        rintro ⟨i, hi, hpre, a, b, ha, hb, hab⟩
        cases i with
        | zero =>
          simp only [List.getElem?_cons_zero, Option.some.injEq] at ha hb
          rw [← ha, ← hb] at hab
          exact hnot hab
        | succ k =>
          have h := hpre 0 (by omega)
          simp only [List.getElem?_cons_zero, Option.some.injEq] at h
          rw [h] at hxy
          exact lt_irrefl y hxy

theorem stdLexicographicalCompare_of_prefix [LinearOrder α] :
    ∀ l1 l2 : List α, l1.length < l2.length → (∀ i, i < l1.length → l1[i]? = l2[i]?) →
      stdLexicographicalCompare (fun x y => decide (x < y)) l1 l2 = true ∧
      stdLexicographicalCompare (fun x y => decide (x < y)) l2 l1 = false := by
  intro l1
  induction l1 with
  | nil =>
    intro l2 hlen _
    cases l2 with
    | nil => simp at hlen
    | cons y ys => simp [stdLexicographicalCompare]
  | cons x xs ih =>
    intro l2 hlen hpre
    cases l2 with
    | nil => simp at hlen
    | cons y ys =>
      simp only [List.length_cons] at hlen
      have h0 := hpre 0 (by simp)
      simp only [List.getElem?_cons_zero, Option.some.injEq] at h0
      subst h0
      have h := ih ys (by omega) (by
        intro i hi
        have h1 := hpre (i + 1) (by simp; omega)
        simpa only [List.getElem?_cons_succ] using h1)
      simp only [stdLexicographicalCompare, lt_irrefl, decide_False, Bool.false_eq_true,
        if_false]
      exact h

/-- C16. For two vectors over a linearly ordered element type: with equal
sizes, `x < y` holds exactly when there is an index `i` below which the two
agree and at which the element of `x` is less than the element of `y`; when
`x` is a proper prefix of `y`, `x < y` holds and `y < x` does not. -/
theorem lt_contract [LinearOrder α] (x y : SimpleVector α) (hx : x.WF) (hy : y.WF) :
    (x.size_ = y.size_ →
      (lt x y = true ↔
        ∃ i, i < x.size_ ∧ (∀ j, j < i → index x j = index y j) ∧
          ∃ a b, index x i = some a ∧ index y i = some b ∧ a < b)) ∧
    (x.size_ < y.size_ → (∀ i, i < x.size_ → index x i = index y i) →
      lt x y = true ∧ lt y x = false) := by
  obtain ⟨hxo, hxi, _⟩ := hx
  obtain ⟨hyo, hyi, _⟩ := hy
  have hlx := toList_length x hxo hxi
  have hly := toList_length y hyo hyi
  constructor
  · intro hs
    unfold lt index
    rw [stdLexicographicalCompare_iff_of_length_eq _ _ (by omega), hlx]
    constructor
    · rintro ⟨i, hi, hpre, a, b, ha, hb, hab⟩
      rw [toList_getElem?, if_pos hi] at ha
      rw [toList_getElem?, if_pos (by omega)] at hb
      refine ⟨i, hi, ?_, a, b, ha, hb, hab⟩
      intro j hj
      have h := hpre j hj
      rw [toList_getElem?, toList_getElem?, if_pos (by omega), if_pos (by omega)] at h
      exact h
    · rintro ⟨i, hi, hpre, a, b, ha, hb, hab⟩
      refine ⟨i, hi, ?_, a, b, ?_, ?_, hab⟩
      · intro j hj
        rw [toList_getElem?, toList_getElem?, if_pos (by omega), if_pos (by omega)]
        exact hpre j hj
      · rw [toList_getElem?, if_pos hi]
        exact ha
      · rw [toList_getElem?, if_pos (by omega)]
        exact hb
  · intro hs hpre
    unfold lt
    apply stdLexicographicalCompare_of_prefix _ _ (by omega)
    intro i hi
    rw [hlx] at hi
    rw [toList_getElem?, toList_getElem?, if_pos hi, if_pos (by omega)]
    exact hpre i hi

/-- Witness of C16: `[1, 2, 3]` against `[1, 9, 2, 3]`, and against its
extension `[1, 2, 3, 4]`. -/
theorem lt_contract_witness :
    fullVector.WF ∧ (PushBackMove exampleJunk 4 fullVector).WF ∧
    fullVector.size_ < (PushBackMove exampleJunk 4 fullVector).size_ ∧
    lt fullVector (PushBackMove exampleJunk 4 fullVector) = true ∧
    lt (PushBackMove exampleJunk 4 fullVector) fullVector = false :=
  have wa : fullVector.WF := ⟨by decide, by decide, by decide⟩
  have wb : (PushBackMove exampleJunk 4 fullVector).WF := ⟨by decide, by decide, by decide⟩
  have hs : fullVector.size_ < (PushBackMove exampleJunk 4 fullVector).size_ := by decide
  ⟨wa, wb, hs, (lt_contract fullVector (PushBackMove exampleJunk 4 fullVector) wa wb).2 hs
    (by decide)⟩

theorem stdLexicographicalCompare_trichotomy [LinearOrder α] :
    ∀ l1 l2 : List α,
      (stdLexicographicalCompare (fun x y => decide (x < y)) l1 l2 = true ∧
        stdEqual (fun x y => x == y) l1 l2 = false ∧
        stdLexicographicalCompare (fun x y => decide (x < y)) l2 l1 = false) ∨
      (stdLexicographicalCompare (fun x y => decide (x < y)) l1 l2 = false ∧
        stdEqual (fun x y => x == y) l1 l2 = true ∧
        stdLexicographicalCompare (fun x y => decide (x < y)) l2 l1 = false) ∨
      (stdLexicographicalCompare (fun x y => decide (x < y)) l1 l2 = false ∧
        stdEqual (fun x y => x == y) l1 l2 = false ∧
        stdLexicographicalCompare (fun x y => decide (x < y)) l2 l1 = true) := by
  intro l1
  induction l1 with
  | nil =>
    intro l2
    cases l2 with
    | nil => simp [stdLexicographicalCompare, stdEqual]
    | cons y ys => simp [stdLexicographicalCompare, stdEqual]
  | cons x xs ih =>
    intro l2
    cases l2 with
    | nil => simp [stdLexicographicalCompare, stdEqual]
    | cons y ys =>
      rcases lt_trichotomy x y with hxy | hxy | hxy
      · have hnot : ¬ y < x := not_lt.mpr (le_of_lt hxy)
        have hne : x ≠ y := ne_of_lt hxy
        simp [stdLexicographicalCompare, stdEqual, hxy, hnot, hne]
      · subst hxy
        simpa [stdLexicographicalCompare, stdEqual] using ih ys
      · have hnot : ¬ x < y := not_lt.mpr (le_of_lt hxy)
        have hne : x ≠ y := (ne_of_lt hxy).symm
        simp [stdLexicographicalCompare, stdEqual, hxy, hnot, hne]

/-- C19. Over a linearly ordered element type exactly one of `a < b`, `a == b`,
`a > b` holds; `a <= b` holds exactly when `a < b` or `a == b`; `a >= b` holds
exactly when `a > b` or `a == b`; `a > b` is `b < a`. -/
theorem comparison_operators_consistent [LinearOrder α] (a b : SimpleVector α) :
    ((lt a b = true ∧ eq a b = false ∧ gt a b = false) ∨
      (lt a b = false ∧ eq a b = true ∧ gt a b = false) ∨
      (lt a b = false ∧ eq a b = false ∧ gt a b = true)) ∧
    (le a b = true ↔ lt a b = true ∨ eq a b = true) ∧
    (ge a b = true ↔ gt a b = true ∨ eq a b = true) ∧
    (gt a b = true ↔ lt b a = true) ∧
    ne a b = !(eq a b) := by
  have h := stdLexicographicalCompare_trichotomy a.toList b.toList
  unfold le ge gt ne
  unfold lt eq
  rcases h with ⟨h1, h2, h3⟩ | ⟨h1, h2, h3⟩ | ⟨h1, h2, h3⟩ <;> simp [h1, h2, h3]

/-! ## Growth under the overload `PushBack(Type&&)` -/

theorem PushBackMove_adopts (v : SimpleVector α) (hi : v.size_ ≤ v.capacity_)
    (hf : v.capacity_ ≤ PTRDIFF_MAX) :
    PushBackMove.adopts v = decide (v.size_ = v.capacity_) := by
  unfold PushBackMove.adopts Resize.adopts
  rw [size_succ_mod v hi hf]
  by_cases h : v.size_ = v.capacity_
  · rw [if_neg (by omega), if_neg (by omega), if_pos (by omega)]
    simp [h]
  · rw [if_neg (by omega), if_pos (by omega)]
    simp [h]

/-- A run of `PushBack(Type&&)` calls from a vector of capacity `c ≥ 1`: the
size grows by the number of calls, every adoption of a new buffer doubles the
capacity, and after an adoption the capacity is below twice the size. -/
theorem runPushCalls_byMove [Elem α] (junk : Nat → α) (items : List α) :
    ∀ v : SimpleVector α, v.size_ ≤ v.capacity_ → 1 ≤ v.capacity_ →
      v.capacity_ ≤ PTRDIFF_MAX → 2 * (v.size_ + items.length) ≤ PTRDIFF_MAX →
      (runPushCalls junk (items.map PushCall.byMove) v).2.size_ = v.size_ + items.length ∧
      (runPushCalls junk (items.map PushCall.byMove) v).2.capacity_ =
        v.capacity_ * 2 ^ (runPushCalls junk (items.map PushCall.byMove) v).1 ∧
      (runPushCalls junk (items.map PushCall.byMove) v).2.size_ ≤
        (runPushCalls junk (items.map PushCall.byMove) v).2.capacity_ ∧
      (1 ≤ (runPushCalls junk (items.map PushCall.byMove) v).1 →
        (runPushCalls junk (items.map PushCall.byMove) v).2.capacity_ <
          2 * (runPushCalls junk (items.map PushCall.byMove) v).2.size_) := by
  induction items with
  | nil =>
    intro v hi _ _ _
    simp [runPushCalls, hi]
  | cons x xs ih =>
    intro v hi h1 hf hb
    simp only [List.length_cons] at hb
    have hs := PushBackMove_size junk x v hi hf
    have hc := PushBackMove_capacity junk x v hi hf
    rw [Resize_capacity junk _ v hi hf] at hc
    have ha := PushBackMove_adopts v hi hf
    simp only [List.map_cons, runPushCalls, PushCall.run, PushCall.adopts, ha, List.length_cons]
    by_cases h : v.size_ = v.capacity_
    · rw [if_neg (by omega)] at hc
      have hc2 : (PushBackMove junk x v).capacity_ = 2 * v.capacity_ := by
        rw [hc]
        omega
      obtain ⟨i1, i2, i3, i4⟩ := ih (PushBackMove junk x v) (by omega) (by omega) (by omega)
        (by omega)
      simp only [h, decide_True, if_true]
      refine ⟨by omega, ?_, i3, ?_⟩
      · rw [i2, hc2, Nat.pow_add]
        ring
      · intro _
        by_cases h0 : 1 ≤ (runPushCalls junk (xs.map PushCall.byMove) (PushBackMove junk x v)).1
        · exact i4 h0
        · have e0 : (runPushCalls junk (xs.map PushCall.byMove) (PushBackMove junk x v)).1 = 0 := by
            omega
          rw [e0] at i2
          omega
    · rw [if_pos (by omega)] at hc
      obtain ⟨i1, i2, i3, i4⟩ := ih (PushBackMove junk x v) (by omega) (by omega) (by omega)
        (by omega)
      simp only [h, decide_False, Bool.false_eq_true, if_false, Nat.zero_add]
      refine ⟨by omega, ?_, i3, i4⟩
      rw [i2, hc]

/-- The growth law for the overload `PushBack(Type&&)`: `k ≥ 1` calls from the
empty vector adopt a new buffer at most `⌈log2 k⌉ + 1` times and end with
size `k` and capacity at least `k`. -/
theorem growth_law_byMove [Elem α] (junk : Nat → α) (items : List α) (h1 : 1 ≤ items.length)
    (hb : 2 * items.length ≤ PTRDIFF_MAX) :
    (runPushCalls junk (items.map PushCall.byMove) empty).1 ≤ Nat.clog 2 items.length + 1 ∧
    (runPushCalls junk (items.map PushCall.byMove) empty).2.size_ = items.length ∧
    items.length ≤ (runPushCalls junk (items.map PushCall.byMove) empty).2.capacity_ := by
  cases items with
  | nil => simp at h1
  | cons x xs =>
    simp only [List.length_cons] at hb ⊢
    have hi : (empty : SimpleVector α).size_ ≤ (empty : SimpleVector α).capacity_ :=
      Nat.le_refl 0
    have hf : (empty : SimpleVector α).capacity_ ≤ PTRDIFF_MAX := Nat.zero_le _
    have hs : (PushBackMove junk x empty).size_ = 1 := PushBackMove_size junk x empty hi hf
    have hc : (PushBackMove junk x empty).capacity_ = 1 := by
      rw [PushBackMove_capacity junk x empty hi hf, Resize_capacity junk _ empty hi hf]
      rfl
    have ha : PushBackMove.adopts (empty : SimpleVector α) = true := by
      rw [PushBackMove_adopts empty hi hf]
      rfl
    obtain ⟨i1, i2, i3, i4⟩ := runPushCalls_byMove junk xs (PushBackMove junk x empty)
      (by omega) (by omega) (by simp only [PTRDIFF_MAX] at *; omega) (by omega)
    simp only [List.map_cons, runPushCalls, PushCall.run, PushCall.adopts, ha, if_true]
    refine ⟨?_, by omega, by omega⟩
    by_cases h0 : 1 ≤ (runPushCalls junk (xs.map PushCall.byMove) (PushBackMove junk x empty)).1
    · have h2 := i4 h0
      rw [i2, hc, i1, hs] at h2
      obtain ⟨r, hr⟩ : ∃ r, (runPushCalls junk (xs.map PushCall.byMove)
          (PushBackMove junk x empty)).1 = r + 1 := ⟨_, (Nat.sub_add_cancel h0).symm⟩
      rw [hr] at h2 ⊢
      have h3 : ¬ (xs.length + 1 ≤ 2 ^ r) := by
        rw [Nat.pow_succ] at h2
        omega
      rw [Nat.le_pow_iff_clog_le (by omega)] at h3
      omega
    · omega

/-- Any run of `push_back` calls, by copy or by move: the size grows by the
number of calls and stays within the capacity. -/
theorem runPushCalls_size [Elem α] (junk : Nat → α) (calls : List (PushCall α)) :
    ∀ v : SimpleVector α, v.size_ ≤ v.capacity_ → v.capacity_ ≤ PTRDIFF_MAX →
      2 * (v.size_ + calls.length) ≤ PTRDIFF_MAX →
      (runPushCalls junk calls v).2.size_ = v.size_ + calls.length ∧
      (runPushCalls junk calls v).2.size_ ≤ (runPushCalls junk calls v).2.capacity_ := by
  induction calls with
  | nil =>
    intro v hi _ _
    exact ⟨rfl, hi⟩
  | cons c cs ih =>
    intro v hi hf hb
    simp only [List.length_cons] at hb
    simp only [runPushCalls, List.length_cons]
    cases c with
    | byCopy x =>
      have hs := PushBack_size junk x v hi hf
      have hc := PushBack_capacity junk x v hi hf
      obtain ⟨i1, i2⟩ := ih (PushBack junk x v) (by omega) (by omega) (by omega)
      exact ⟨by simp only [PushCall.run]; omega, i2⟩
    | byMove x =>
      have hs := PushBackMove_size junk x v hi hf
      have hc := PushBackMove_capacity junk x v hi hf
      rw [Resize_capacity junk _ v hi hf] at hc
      have hle : (PushBackMove junk x v).size_ ≤ (PushBackMove junk x v).capacity_ ∧
          (PushBackMove junk x v).capacity_ ≤ PTRDIFF_MAX := by
        rw [hc, hs]
        split_ifs <;> omega
      obtain ⟨i1, i2⟩ := ih (PushBackMove junk x v) hle.1 hle.2 (by omega)
      exact ⟨by simp only [PushCall.run]; omega, i2⟩

/-! ## Independence of a copy -/

theorem buffer_allocate_new (mem : Memory α) (s : List α) :
    Memory.buffer (Memory.allocate mem s).1 (Memory.allocate mem s).2 = s := by
  unfold Memory.allocate
  split_ifs with h
  · simp only [Memory.buffer]
    exact (List.isEmpty_iff.mp h).symm
  · simp [Memory.buffer]

theorem allocate_fresh (mem : Memory α) (s : List α) (p : Nat)
    (h : (Memory.allocate mem s).2 = some p) :
    p = mem.length ∧ p < (Memory.allocate mem s).1.length := by
  unfold Memory.allocate at h ⊢
  split_ifs at h ⊢ with h1
  simp only [Option.some.injEq] at h
  refine ⟨h.symm, ?_⟩
  show p < (mem ++ [s]).length
  simp only [List.length_append, List.length_singleton]
  omega

theorem allocate_length_le (mem : Memory α) (s : List α) :
    mem.length ≤ (Memory.allocate mem s).1.length := by
  unfold Memory.allocate
  split_ifs
  · exact Nat.le_refl _
  · simp

theorem buffer_allocate_old (mem : Memory α) (s : List α) (q : Option Nat)
    (hq : Memory.Points mem q) :
    Memory.buffer (Memory.allocate mem s).1 q = Memory.buffer mem q := by
  cases q with
  | none => rfl
  | some p =>
    have hp := hq p rfl
    unfold Memory.allocate
    split_ifs
    · rfl
    · simp only [Memory.buffer]
      rw [List.getElem?_append_left hp]

theorem buffer_write_other (mem : Memory α) (s : List α) (k q : Option Nat)
    (h : ∀ p, q = some p → k ≠ some p) :
    Memory.buffer (Memory.write mem k s) q = Memory.buffer mem q := by
  cases q with
  | none => rfl
  | some p =>
    cases k with
    | none => rfl
    | some j =>
      have hne : j ≠ p := by
        intro e
        exact h p rfl (by rw [e])
      simp only [Memory.buffer, Memory.write, List.getElem?_set, if_neg hne]

theorem buffer_write_same (mem : Memory α) (s : List α) (k : Option Nat)
    (hk : Memory.Points mem k) (hnull : k = none → s = []) :
    Memory.buffer (Memory.write mem k s) k = s := by
  cases k with
  | none => exact (hnull rfl).symm
  | some j =>
    have hj := hk j rfl
    simp [Memory.buffer, Memory.write, List.getElem?_set, hj]

theorem Resize_length_of_not_adopts [Elem α] (junk : Nat → α) (m : Nat) (v : SimpleVector α)
    (h : Resize.adopts m v = false) :
    (Resize junk m v).items_.slots.length = v.items_.slots.length := by
  unfold Resize.adopts at h
  unfold Resize
  split_ifs at h ⊢
  · rfl
  · simp only [fillLoop_length]
  · rfl

theorem Mutation.effect_length [Elem α] (junk : Nat → α) (m : Mutation α) (v : SimpleVector α)
    (h : m.adopts v = false) :
    (m.effect junk v).items_.slots.length = v.items_.slots.length := by
  cases m with
  | assign i x => simp only [Mutation.effect, SimpleVector.assign, List.length_set]
  | pushBack x => simp [Mutation.adopts, PushBack.adopts] at h
  | pushBackMove x =>
    simp only [Mutation.adopts, PushBackMove.adopts] at h
    simp only [Mutation.effect, PushBackMove, List.length_set]
    exact Resize_length_of_not_adopts junk _ v h
  | resize n =>
    simp only [Mutation.adopts] at h
    exact Resize_length_of_not_adopts junk n v h
  | erase p => simp only [Mutation.effect, Erase, forwardLoop_length]

/-- A mutation called on an object leaves every object with another buffer as
it was. -/
theorem mutate_other [Elem α] (junk : Nat → α) (mem : Memory α) (a b : Object)
    (m : Mutation α) (ha : Memory.Points mem a.items_)
    (hne : ∀ p, a.items_ = some p → b.items_ ≠ some p) :
    a.load (b.mutate junk mem m).1 = a.load mem := by
  unfold Object.mutate Object.call
  dsimp only
  split_ifs with h
  · unfold Object.load
    dsimp only
    rw [buffer_allocate_old mem _ _ ha]
  · unfold Object.load
    dsimp only
    rw [buffer_write_other mem _ _ _ hne]

/-- A mutation called on an object gives the object the value that the member
function computes. -/
theorem mutate_self [Elem α] (junk : Nat → α) (mem : Memory α) (b : Object) (m : Mutation α)
    (hb : Memory.Points mem b.items_) :
    (b.mutate junk mem m).2.load (b.mutate junk mem m).1 = m.effect junk (b.load mem) := by
  unfold Object.mutate Object.call
  dsimp only
  split_ifs with h
  · generalize m.effect junk (b.load mem) = w
    unfold Object.load
    dsimp only
    rw [buffer_allocate_new]
  · have hl := Mutation.effect_length junk m (b.load mem) (by simpa using h)
    have hnull : b.items_ = none → (m.effect junk (b.load mem)).items_.slots = [] := by
      intro hn
      simp only [Object.load, hn, Memory.buffer, List.length_nil] at hl
      simp only [Object.load, hn, Memory.buffer]
      exact List.length_eq_zero.mp hl
    generalize m.effect junk (b.load mem) = w at hnull
    unfold Object.load
    dsimp only
    rw [buffer_write_same mem _ _ hb hnull]

/-- C11. Copy construction and copy assignment `b = a` of an object `a` in
memory give `b.size = a.size`, `b.capacity ≥ b.size` and `b[i] = a[i]` for
every `i < size`, so `a == b` holds right after the copy; `a` is as before the
copy; the buffer of `b` is not the buffer of `a`; and every mutation of `b`
(element write, `push_back` by copy or by move, `Resize`, `Erase`) changes `b`
as the member function says and leaves the size, the capacity and the elements
of `a` as they were. -/
theorem copy_contract [Elem α] [BEq α] [ReflBEq α] (junk : Nat → α) (mem : Memory α)
    (a o : Object) (h : a.Valid mem) :
    (((Object.copyConstruct junk mem a).2.load (Object.copyConstruct junk mem a).1).size_ = (a.load mem).size_ ∧
      ((Object.copyConstruct junk mem a).2.load (Object.copyConstruct junk mem a).1).size_ ≤ ((Object.copyConstruct junk mem a).2.load (Object.copyConstruct junk mem a).1).capacity_ ∧
      (∀ i, i < (a.load mem).size_ →
        index ((Object.copyConstruct junk mem a).2.load (Object.copyConstruct junk mem a).1) i = index (a.load mem) i) ∧
      eq (a.load (Object.copyConstruct junk mem a).1) ((Object.copyConstruct junk mem a).2.load (Object.copyConstruct junk mem a).1) = true ∧
      a.load (Object.copyConstruct junk mem a).1 = a.load mem ∧
      (∀ p, (Object.copyConstruct junk mem a).2.items_ = some p → a.items_ ≠ some p) ∧
      (Object.copyConstruct junk mem a).2.Valid (Object.copyConstruct junk mem a).1 ∧
      ∀ m : Mutation α,
        a.load ((Object.copyConstruct junk mem a).2.mutate junk (Object.copyConstruct junk mem a).1 m).1 = a.load mem ∧
        ((Object.copyConstruct junk mem a).2.mutate junk (Object.copyConstruct junk mem a).1 m).2.load ((Object.copyConstruct junk mem a).2.mutate junk (Object.copyConstruct junk mem a).1 m).1 =
          m.effect junk ((Object.copyConstruct junk mem a).2.load (Object.copyConstruct junk mem a).1)) ∧
    (((Object.copyAssign junk mem o a).2.load (Object.copyAssign junk mem o a).1).size_ = (a.load mem).size_ ∧
      ((Object.copyAssign junk mem o a).2.load (Object.copyAssign junk mem o a).1).size_ ≤ ((Object.copyAssign junk mem o a).2.load (Object.copyAssign junk mem o a).1).capacity_ ∧
      (∀ i, i < (a.load mem).size_ →
        index ((Object.copyAssign junk mem o a).2.load (Object.copyAssign junk mem o a).1) i = index (a.load mem) i) ∧
      eq (a.load (Object.copyAssign junk mem o a).1) ((Object.copyAssign junk mem o a).2.load (Object.copyAssign junk mem o a).1) = true ∧
      a.load (Object.copyAssign junk mem o a).1 = a.load mem ∧
      (∀ p, (Object.copyAssign junk mem o a).2.items_ = some p → a.items_ ≠ some p) ∧
      (Object.copyAssign junk mem o a).2.Valid (Object.copyAssign junk mem o a).1 ∧
      ∀ m : Mutation α,
        a.load ((Object.copyAssign junk mem o a).2.mutate junk (Object.copyAssign junk mem o a).1 m).1 = a.load mem ∧
        ((Object.copyAssign junk mem o a).2.mutate junk (Object.copyAssign junk mem o a).1 m).2.load ((Object.copyAssign junk mem o a).2.mutate junk (Object.copyAssign junk mem o a).1 m).1 =
          m.effect junk ((Object.copyAssign junk mem o a).2.load (Object.copyAssign junk mem o a).1)) := by
  obtain ⟨hp, hwf⟩ := h
  have facts := (copy_value junk (a.load mem) (a.load mem) hwf).1
  have hb : (Object.copyConstruct junk mem a).2.load (Object.copyConstruct junk mem a).1 =
      copy junk (a.load mem) := by
    unfold Object.copyConstruct
    dsimp only
    generalize copy junk (a.load mem) = w
    unfold Object.load
    dsimp only
    rw [buffer_allocate_new]
  have ha : a.load (Object.copyConstruct junk mem a).1 = a.load mem := by
    unfold Object.copyConstruct
    dsimp only
    unfold Object.load
    rw [buffer_allocate_old mem _ _ hp]
  have hfresh : ∀ p, (Object.copyConstruct junk mem a).2.items_ = some p →
      p = mem.length ∧ p < (Object.copyConstruct junk mem a).1.length := by
    intro p hpp
    exact allocate_fresh mem _ p hpp
  have hne : ∀ p, (Object.copyConstruct junk mem a).2.items_ = some p → a.items_ ≠ some p := by
    intro p hpp hap
    have h1 := (hfresh p hpp).1
    have h2 := hp p hap
    omega
  have hpa : Memory.Points (Object.copyConstruct junk mem a).1 a.items_ := by
    intro p hap
    have h1 := hp p hap
    have h2 : mem.length ≤ (Object.copyConstruct junk mem a).1.length :=
      allocate_length_le mem _
    omega
  have hpb : Memory.Points (Object.copyConstruct junk mem a).1
      (Object.copyConstruct junk mem a).2.items_ := by
    intro p hpp
    exact (hfresh p hpp).2
  have key :
    (((Object.copyConstruct junk mem a).2.load (Object.copyConstruct junk mem a).1).size_ = (a.load mem).size_ ∧
      ((Object.copyConstruct junk mem a).2.load (Object.copyConstruct junk mem a).1).size_ ≤ ((Object.copyConstruct junk mem a).2.load (Object.copyConstruct junk mem a).1).capacity_ ∧
      (∀ i, i < (a.load mem).size_ →
        index ((Object.copyConstruct junk mem a).2.load (Object.copyConstruct junk mem a).1) i = index (a.load mem) i) ∧
      eq (a.load (Object.copyConstruct junk mem a).1) ((Object.copyConstruct junk mem a).2.load (Object.copyConstruct junk mem a).1) = true ∧
      a.load (Object.copyConstruct junk mem a).1 = a.load mem ∧
      (∀ p, (Object.copyConstruct junk mem a).2.items_ = some p → a.items_ ≠ some p) ∧
      (Object.copyConstruct junk mem a).2.Valid (Object.copyConstruct junk mem a).1 ∧
      ∀ m : Mutation α,
        a.load ((Object.copyConstruct junk mem a).2.mutate junk (Object.copyConstruct junk mem a).1 m).1 = a.load mem ∧
        ((Object.copyConstruct junk mem a).2.mutate junk (Object.copyConstruct junk mem a).1 m).2.load ((Object.copyConstruct junk mem a).2.mutate junk (Object.copyConstruct junk mem a).1 m).1 =
          m.effect junk ((Object.copyConstruct junk mem a).2.load (Object.copyConstruct junk mem a).1)) := by
    refine ⟨?_, ?_, ?_, ?_, ha, hne, ⟨hpb, ?_⟩, ?_⟩
    · rw [hb]
      exact facts.1
    · rw [hb]
      exact facts.2.1
    · rw [hb]
      exact facts.2.2.1
    · rw [hb, ha]
      exact facts.2.2.2.2.1
    · rw [hb]
      exact facts.2.2.2.2.2
    · intro m
      refine ⟨?_, mutate_self junk _ _ m hpb⟩
      rw [mutate_other junk _ a _ m hpa (fun p hap hbp => hne p hbp hap), ha]
  exact ⟨key, key⟩

/-- Witness of C11: the copy of the object `[1, 2, 3]`, then `b[0] = 7`. -/
theorem copy_contract_witness :
    exampleObject.Valid exampleMemory ∧
    eq (exampleObject.load (Object.copyConstruct exampleJunk exampleMemory exampleObject).1)
      ((Object.copyConstruct exampleJunk exampleMemory exampleObject).2.load
        (Object.copyConstruct exampleJunk exampleMemory exampleObject).1) = true ∧
    exampleObject.load
      ((Object.copyConstruct exampleJunk exampleMemory exampleObject).2.mutate exampleJunk
        (Object.copyConstruct exampleJunk exampleMemory exampleObject).1 (.assign 0 7)).1 =
      exampleObject.load exampleMemory :=
  have hv : exampleObject.Valid exampleMemory :=
    ⟨by intro p hp; cases hp; decide, ⟨by decide, by decide, by decide⟩⟩
  have h := copy_contract exampleJunk exampleMemory exampleObject exampleObject hv
  ⟨hv, h.1.2.2.2.1, (h.1.2.2.2.2.2.2.2 (.assign 0 7)).1⟩

end SimpleVector
